import Mathlib

/-!
# boost.fiber: the intrusive fifo of worker fibers and timed_mutex

A shallow embedding of `boost/fiber/detail/fifo.hpp` and `src/timed_mutex.cpp`.

* A `ptr_t` (an `intrusive_ptr< worker_fiber >`) is `Option Nat`: `none` is the
  empty pointer, `some a` points to the fiber object with address `a`.
* The `nxt_` link of every fiber object is kept in a heap `Nat → ptr_t` that
  travels with the queue (`fifo.State.next`).
* A failed `BOOST_ASSERT` and a loop running out of fuel are the two ways an
  operation ends in `Except.error`. Dereferencing an empty `intrusive_ptr` is a
  failed assertion: its `operator->` is `BOOST_ASSERT( px != 0 )`.
* `lock()` and `try_lock_until()` are embedded one pass of their loop at a time,
  each spinlock-guarded section being one atomic step. The scheduler (`fm_wait`,
  `fm_wait_until`, `set_ready`) is not part of the sources: `timed_mutex.Run`
  keeps a phase per fiber and the log of `set_ready()` calls for it.
-/

/-- Ways an operation fails to return: a failed `BOOST_ASSERT` (that of
`intrusive_ptr::operator->` on an empty pointer included), or a loop out of fuel. -/
inductive Err where
  | assertion
  | fuel
  deriving DecidableEq, Repr

namespace fifo

/-- The pointer type of the queue: `none` is the empty `intrusive_ptr`. -/
abbrev ptr_t := Option Nat

/-- The queue `head_`, `tail_` together with the `nxt_` link of every fiber object. -/
structure State where
  next : Nat → ptr_t
  head_ : ptr_t
  tail_ : ptr_t

/-- Modelled from the spec: `worker_fiber::next( item)` and `worker_fiber::next_reset()`
(worker_fiber.hpp is not part of the sources) write the single intrusive next link of
fiber `a`; `next_reset` writes the empty pointer. -/
def setNext (next : Nat → ptr_t) (a : Nat) (v : ptr_t) : Nat → ptr_t :=
  fun b => if b = a then v else next b

/-- The constructor `fifo()`: both pointers empty (the heap of fiber objects is given). -/
def init (next : Nat → ptr_t) : State :=
  { next := next, head_ := none, tail_ := none }

/-- Source `empty()`: `0 == head_.get()`. -/
def empty (s : State) : Bool :=
  s.head_.isNone

/-- The loop of `size()`: `for ( x = head_; x; x = x->next() ) ++counter`. -/
def sizeLoop (next : Nat → ptr_t) : Nat → ptr_t → Nat → Except Err Nat
  | _, none, counter => .ok counter
  | 0, some _, _ => .error .fuel
  | k + 1, some x, counter => sizeLoop next k (next x) (counter + 1)

/-- Source `size()`. -/
def size (fuel : Nat) (s : State) : Except Err Nat :=
  sizeLoop s.next fuel s.head_ 0

/-- Source `push( item)`. -/
def push (s : State) (item : ptr_t) : Except Err State :=
  match item with
  | none => .error .assertion
  | some i =>
    if empty s then
      .ok { next := s.next, head_ := some i, tail_ := some i }
    else
      match s.tail_ with
      | none => .error .assertion
      | some t =>
        let next1 := setNext s.next t (some i)
        .ok { next := next1, head_ := s.head_, tail_ := next1 t }

/-- Source `pop()`. -/
def pop (s : State) : Except Err (ptr_t × State) :=
  if empty s then .error .assertion
  else
    match s.head_ with
    | none => .error .assertion
    | some h =>
      match s.next h with
      | none => .ok (some h, { next := s.next, head_ := none, tail_ := none })
      | some n => .ok (some h, { next := setNext s.next h none, head_ := some n, tail_ := s.tail_ })

/-- The loop of `find( item)`. -/
def findLoop (next : Nat → ptr_t) (item : ptr_t) : Nat → ptr_t → Except Err ptr_t
  | _, none => .ok none
  | 0, some _ => .error .fuel
  | k + 1, some x => if item = some x then .ok (some x) else findLoop next item k (next x)

/-- Source `find( item)`. -/
def find (fuel : Nat) (s : State) (item : ptr_t) : Except Err ptr_t :=
  match item with
  | none => .error .assertion
  | some _ => findLoop s.next item fuel s.head_

/-- The scanning loop of `erase( item)`, entered when `item` is not the head. -/
def eraseLoop (item : ptr_t) : Nat → State → ptr_t → Except Err State
  | _, s, none => .ok s
  | 0, _, some _ => .error .fuel
  | k + 1, s, some x =>
    match s.next x with
    | none => .ok s
    | some n =>
      if item = some n then
        let tail1 := if s.tail_ = some n then some x else s.tail_
        let next1 := setNext s.next x (s.next n)
        .ok { next := setNext next1 n none, head_ := s.head_, tail_ := tail1 }
      else eraseLoop item k s (some n)

/-- Source `erase( item)`. -/
def erase (fuel : Nat) (s : State) (item : ptr_t) : Except Err State :=
  match item with
  | none => .error .assertion
  | some _ =>
    if empty s then .error .assertion
    else if item = s.head_ then (pop s).map Prod.snd
    else eraseLoop item fuel s s.head_

/-- The loop of `move_to( queue, fn)`; `f` and `prev` are the two loop variables and
`queue` is the target collection, extended by `push_back`. -/
def move_toLoop (fn : Nat → Bool) :
    Nat → State → List ptr_t → ptr_t → ptr_t → Except Err (State × List ptr_t)
  | _, s, queue, none, _ => .ok (s, queue)
  | 0, _, _, some _, _ => .error .fuel
  | k + 1, s, queue, some f, prev =>
    let nxt := s.next f
    if fn f then
      if some f = s.head_ then
        match nxt with
        | none =>
          move_toLoop fn k { next := setNext s.next f none, head_ := none, tail_ := none }
            (queue ++ [some f]) nxt prev
        | some _ =>
          move_toLoop fn k { next := setNext s.next f none, head_ := nxt, tail_ := s.tail_ }
            (queue ++ [some f]) nxt nxt
      else
        let tail1 := if nxt = none then prev else s.tail_
        match prev with
        | none => .error .assertion
        | some p =>
          let next1 := setNext s.next p nxt
          move_toLoop fn k { next := setNext next1 f none, head_ := s.head_, tail_ := tail1 }
            (queue ++ [some f]) nxt prev
    else move_toLoop fn k s queue nxt (some f)

/-- Source `move_to( queue, fn)`. -/
def move_to (fuel : Nat) (fn : Nat → Bool) (s : State) (queue : List ptr_t) :
    Except Err (State × List ptr_t) :=
  move_toLoop fn fuel s queue s.head_ s.head_

/-- The pointer reached from `p` after `k` reads of the next link (the empty pointer
has no next link: it stays empty). -/
def follow (next : Nat → ptr_t) : Nat → ptr_t → ptr_t
  | 0, p => p
  | k + 1, p => follow next k (p.bind next)

/-- Following next from `p` visits exactly the fibers of `L`, in order, and then reaches
the empty pointer. -/
def Chain (next : Nat → ptr_t) : ptr_t → List Nat → Prop
  | p, [] => p = none
  | p, a :: l => p = some a ∧ Chain next (next a) l

/-- The contents of the queue: the fibers linked from `head_`, in order. -/
def Contents (s : State) (L : List Nat) : Prop :=
  Chain s.next s.head_ L

/-- Fiber `a` is linked in the queue: some number of next steps from `head_` reaches it. -/
def Member (s : State) (a : Nat) : Prop :=
  ∃ k, follow s.next k s.head_ = some a

/-- Well-formed queue: `head_` is empty iff `tail_` is empty, the next link of `tail_` is
empty, and following next from `head_` visits distinct handles and reaches `tail_` after
exactly `size() - 1` steps. -/
def WellFormed (s : State) : Prop :=
  (s.head_ = none ↔ s.tail_ = none) ∧
  (∀ t, s.tail_ = some t → s.next t = none) ∧
  ∃ n, (∃ fuel, size fuel s = .ok n) ∧
    (∀ i j, i < j → j < n → follow s.next i s.head_ ≠ follow s.next j s.head_) ∧
    (0 < n → follow s.next (n - 1) s.head_ = s.tail_)

/-- Abstraction relation used in the proofs: the queue holds exactly the distinct fibers
of `L`, and `tail_` points to the last of them. -/
def Holds (s : State) (L : List Nat) : Prop :=
  Chain s.next s.head_ L ∧ L.Nodup ∧ s.tail_ = L.getLast?

/-- Calling `push` for each handle of a list, in order. -/
def pushAll (s : State) : List ptr_t → Except Err State
  | [] => .ok s
  | h :: hs => (push s h).bind fun s1 => pushAll s1 hs

/-- Calling `pop` `n` times, collecting the returned handles in call order. -/
def popN : Nat → State → Except Err (List ptr_t × State)
  | 0, s => .ok ([], s)
  | n + 1, s => (pop s).bind fun r => (popN n r.2).map fun q => (r.1 :: q.1, q.2)

/-- Queues reached from the empty queue by valid calls: `push` of a non-empty handle that
is not linked and whose next link is empty, `pop` on a non-empty queue, `erase` of a
non-empty handle on a non-empty queue (the calls that pass their assertions). -/
inductive Reachable : State → Prop
  | init (next : Nat → ptr_t) : Reachable (init next)
  | push {s s1 : State} (a : Nat) : Reachable s → ¬ Member s a → s.next a = none →
      push s (some a) = .ok s1 → Reachable s1
  | pop {s s1 : State} (r : ptr_t) : Reachable s → pop s = .ok (r, s1) → Reachable s1
  | erase {s s1 : State} (fuel a : Nat) : Reachable s → erase fuel s (some a) = .ok s1 →
      Reachable s1

/-- A heap in which fibers 1 to 6 are linked in a row and every other link is empty. -/
def heap6 : Nat → ptr_t :=
  fun a => if a = 0 then none else if a < 6 then some (a + 1) else none

/-- The queue holding fibers 1 to 6 in `heap6`. -/
def queue6 : State :=
  { next := heap6, head_ := some 1, tail_ := some 6 }

/-- The queue holding the single fiber 4, all links empty. -/
def queue1 : State :=
  { next := fun _ => none, head_ := some 4, tail_ := some 4 }

/-- A predicate selecting every third member of `queue6`. -/
def everyThird (a : Nat) : Bool :=
  a % 3 == 0

/-- Source `pop()`, statement by statement, keeping the queue object as it is when the
call ends, also when it ends in a failed assertion. -/
def pop_run (s : State) : Except Err ptr_t × State :=
  if empty s then (.error .assertion, s)
  else
    match s.head_ with
    | none => (.error .assertion, s)
    | some h =>
      let s1 : State := { next := s.next, head_ := s.next h, tail_ := s.tail_ }
      match s1.head_ with
      | none => (.ok (some h), { next := s1.next, head_ := s1.head_, tail_ := s1.head_ })
      | some _ =>
        (.ok (some h), { next := setNext s1.next h none, head_ := s1.head_, tail_ := s1.tail_ })

/-- Source `erase( item)`, keeping the queue object as it is when the call ends, also
when it ends in a failed assertion. -/
def erase_run (fuel : Nat) (s : State) (item : ptr_t) : Except Err Unit × State :=
  match item with
  | none => (.error .assertion, s)
  | some _ =>
    if empty s then (.error .assertion, s)
    else if item = s.head_ then ((pop_run s).1.map fun _ => (), (pop_run s).2)
    else
      match eraseLoop item fuel s s.head_ with
      | .ok s1 => (.ok (), s1)
      | .error e => (.error e, s)

/-- A heap in which fiber 9 is linked to fiber 3 and every other link is empty. -/
def heapLinked : Nat → ptr_t :=
  fun a => if a = 9 then some 3 else none

end fifo

namespace timed_mutex

/-- Modelled from the spec: `mutex_status` (timed_mutex.hpp is not part of the sources),
the two states Unlocked and Locked. -/
inductive mutex_status where
  | unlocked
  | locked
  deriving DecidableEq, Repr

/-- The data members guarded by `splk_`. `owner_` is a `fiber_context::id`, `none` being
the default-constructed id; `waiting_` is the `std::deque< fiber_handle >`. -/
structure State where
  state_ : mutex_status
  owner_ : Option Nat
  waiting_ : List Nat
  deriving DecidableEq, Repr

/-- How one pass through an operation ends: it returns (a `bool`, `true` for the `void`
return of `lock()`), or the calling fiber is suspended in `fm_wait` / `fm_wait_until`. -/
inductive Step where
  | returned (result : Bool)
  | suspended
  deriving DecidableEq, Repr

/-- The constructor `timed_mutex()`. -/
def init : State :=
  { state_ := .unlocked, owner_ := none, waiting_ := [] }

/-- Source `lock_if_unlocked_()`; `self` is `this_fiber::get_id()`. -/
def lock_if_unlocked_ (self : Nat) (m : State) : Except Err (Bool × State) :=
  if m.state_ ≠ .unlocked then .ok (false, m)
  else if m.owner_.isSome then .error .assertion
  else .ok (true, { state_ := .locked, owner_ := some self, waiting_ := m.waiting_ })

/-- One pass of the `for (;;)` of `lock()`, from taking `splk_` to the return or to the
suspension in `fm_wait( lk)`; `self` is the active fiber. -/
def lock_pass (self : Nat) (m : State) : Except Err (Step × State) :=
  match lock_if_unlocked_ self m with
  | .error e => .error e
  | .ok (true, m1) => .ok (.returned true, m1)
  | .ok (false, m1) =>
    if self ∈ m1.waiting_ then .error .assertion
    else .ok (.suspended, { state_ := m1.state_, owner_ := m1.owner_,
                            waiting_ := m1.waiting_ ++ [self] })

/-- Source `try_lock()`. -/
def try_lock (self : Nat) (m : State) : Except Err (Bool × State) :=
  match lock_if_unlocked_ self m with
  | .error e => .error e
  | .ok (true, m1) => .ok (true, m1)
  | .ok (false, m1) => .ok (false, m1)

/-- One pass of the `for (;;)` of `try_lock_until( timeout_time)`, from taking `splk_` to
a return or to the suspension in `fm_wait_until`; `now` is the clock read by this pass. -/
def try_lock_until_pass (self now timeout_time : Nat) (m : State) : Except Err (Step × State) :=
  if now > timeout_time then .ok (.returned false, m)
  else
    match lock_if_unlocked_ self m with
    | .error e => .error e
    | .ok (true, m1) => .ok (.returned true, m1)
    | .ok (false, m1) =>
      if self ∈ m1.waiting_ then .error .assertion
      else .ok (.suspended, { state_ := m1.state_, owner_ := m1.owner_,
                              waiting_ := m1.waiting_ ++ [self] })

/-- The branch of `try_lock_until` taken when `fm_wait_until` reports a timeout: the
fiber is removed from `waiting_` if `std::find` finds it, and `false` is returned. -/
def try_lock_until_timeout (self : Nat) (m : State) : Bool × State :=
  if self ∈ m.waiting_ then
    (false, { state_ := m.state_, owner_ := m.owner_, waiting_ := m.waiting_.erase self })
  else (false, m)

/-- Source `unlock()`; the first component is the fiber on which `set_ready()` is
called, if any. -/
def unlock (self : Nat) (m : State) : Except Err (Option Nat × State) :=
  if m.state_ ≠ .locked then .error .assertion
  else if m.owner_ ≠ some self then .error .assertion
  else
    match m.waiting_ with
    | [] => .ok (none, { state_ := .unlocked, owner_ := none, waiting_ := [] })
    | f :: rest => .ok (some f, { state_ := .unlocked, owner_ := none, waiting_ := rest })

/-- Fibers contending for one mutex around a shared counter. `holders` lists the fibers
that have acquired the mutex and not yet released it. Modelled from the spec: the
counter client of the mutual exclusion test, each fiber incrementing `counter` by
reading it into its own register (`loaded`) and writing back the value plus one;
`increments` counts the completed increments. -/
structure System where
  m : State
  holders : List Nat
  counter : Nat
  loaded : Nat → Option Nat
  increments : Nat

/-- The system at start: a freshly constructed mutex, counter at zero. -/
def System.init : System :=
  { m := timed_mutex.init, holders := [], counter := 0, loaded := fun _ => none,
    increments := 0 }

/-- The fibers holding the mutex after fiber `f` ended a pass with `r`. -/
def acquire (f : Nat) (r : Step) (holders : List Nat) : List Nat :=
  if r = .returned true then f :: holders else holders

/-- One atomic step of some fiber `f`: a spinlock-guarded section of `lock`, `try_lock`,
`try_lock_until` or `unlock`, or one half of an increment made while holding the mutex.
A call that fails an assertion has no successor. -/
inductive Next : System → System → Prop
  | lock (s : System) (f : Nat) (r : Step) (m1 : State) :
      lock_pass f s.m = .ok (r, m1) →
      Next s { s with m := m1, holders := acquire f r s.holders }
  | try_lock (s : System) (f : Nat) (b : Bool) (m1 : State) :
      try_lock f s.m = .ok (b, m1) →
      Next s { s with m := m1, holders := acquire f (.returned b) s.holders }
  | try_lock_until (s : System) (f now timeout_time : Nat) (r : Step) (m1 : State) :
      try_lock_until_pass f now timeout_time s.m = .ok (r, m1) →
      Next s { s with m := m1, holders := acquire f r s.holders }
  | timeout (s : System) (f : Nat) :
      Next s { s with m := (try_lock_until_timeout f s.m).2 }
  | unlock (s : System) (f : Nat) (woken : Option Nat) (m1 : State) :
      unlock f s.m = .ok (woken, m1) → s.loaded f = none →
      Next s { s with m := m1, holders := s.holders.erase f }
  | load (s : System) (f : Nat) :
      f ∈ s.holders → s.loaded f = none →
      Next s { s with loaded := fun g => if g = f then some s.counter else s.loaded g }
  | store (s : System) (f v : Nat) :
      s.loaded f = some v →
      Next s { s with counter := v + 1, increments := s.increments + 1,
                      loaded := fun g => if g = f then none else s.loaded g }

/-- States reached from the start by any interleaving of steps. -/
inductive Reachable : System → Prop
  | init : Reachable System.init
  | step {s s1 : System} : Reachable s → Next s s1 → Reachable s1

/-- The system after fiber 1 took the mutex by `lock()` and incremented the counter
once, still holding the mutex. -/
def afterIncrement : System :=
  { m := { state_ := .locked, owner_ := some 1, waiting_ := [] }, holders := [1],
    counter := 1,
    loaded := fun g => if g = 1 then none else (if g = 1 then some 0 else none),
    increments := 1 }

/-- The mutex after fiber 1, holding it with fibers 5 and 6 waiting, released it:
fiber 5 was popped, fiber 6 still waits. -/
def releasedWaited : State :=
  { state_ := .unlocked, owner_ := none, waiting_ := [6] }

/-- A mutex locked by fiber 1 with fibers 5 and 6 waiting. -/
def lockedWaited : State :=
  { state_ := .locked, owner_ := some 1, waiting_ := [5, 6] }

/-- Invariant of the system used to prove mutual exclusion: nobody holds an unlocked
mutex and exactly the owner holds a locked one; a fiber in the middle of an increment
holds the mutex and has read the current counter; no increment was lost. -/
def Inv (s : System) : Prop :=
  ((s.holders = [] ∧ s.m.state_ = .unlocked ∧ s.m.owner_ = none) ∨
    (∃ f, s.holders = [f] ∧ s.m.state_ = .locked ∧ s.m.owner_ = some f)) ∧
  (∀ f v, s.loaded f = some v → f ∈ s.holders ∧ v = s.counter) ∧
  s.counter = s.increments

/-- What a pass of an acquiring operation does to `state_` and `owner_`: either it
returns `true` having found the mutex unlocked and unowned and made the caller its
owner, or it leaves both as they were. -/
def Acquires (f : Nat) (m : State) (r : Step) (m1 : State) : Prop :=
  (r = .returned true ∧ m.state_ = .unlocked ∧ m.owner_ = none ∧
    m1.state_ = .locked ∧ m1.owner_ = some f) ∨
  (r ≠ .returned true ∧ m1.state_ = m.state_ ∧ m1.owner_ = m.owner_)

/-- Source `unlock()`, keeping the mutex as it is when the call ends, also when it ends
in a failed assertion; the result is the fiber on which `set_ready()` is called. -/
def unlock_run (self : Nat) (m : State) : Except Err (Option Nat) × State :=
  if m.state_ ≠ .locked then (.error .assertion, m)
  else if m.owner_ ≠ some self then (.error .assertion, m)
  else
    match m.waiting_ with
    | [] => (.ok none, { state_ := .unlocked, owner_ := none, waiting_ := [] })
    | f :: rest => (.ok (some f), { state_ := .unlocked, owner_ := none, waiting_ := rest })

/-- The fibers of a list call `lock()` one after the other; how the first pass of each
call ends is collected in call order. -/
def lockAll : List Nat → State → Except Err (List Step × State)
  | [], m => .ok ([], m)
  | f :: fs, m =>
    match lock_pass f m with
    | .error e => .error e
    | .ok (r, m1) => (lockAll fs m1).map fun q => (r :: q.1, q.2)

/-- One `unlock()` by each fiber of `os` in turn, the next fiber of `os` acquiring the
mutex by a pass of `lock()` between two releases; the fibers on which the releases call
`set_ready()` are collected in order. -/
def releases : List Nat → State → Except Err (List (Option Nat) × State)
  | [], m => .ok ([], m)
  | o :: os, m =>
    match unlock o m with
    | .error e => .error e
    | .ok (w, m1) =>
      match os with
      | [] => .ok ([w], m1)
      | g :: _ =>
        match lock_pass g m1 with
        | .error e => .error e
        | .ok (_, m2) => (releases os m2).map fun q => (w :: q.1, q.2)

/-- One call, or one pass of a call, of some fiber on the mutex; a call that fails an
assertion has no successor. -/
inductive Op : State → State → Prop
  | lock (m : State) (f : Nat) (r : Step) (m1 : State) :
      lock_pass f m = .ok (r, m1) → Op m m1
  | try_lock (m : State) (f : Nat) (b : Bool) (m1 : State) :
      try_lock f m = .ok (b, m1) → Op m m1
  | try_lock_until (m : State) (f now timeout_time : Nat) (r : Step) (m1 : State) :
      try_lock_until_pass f now timeout_time m = .ok (r, m1) → Op m m1
  | timeout (m : State) (f : Nat) : Op m (try_lock_until_timeout f m).2
  | unlock (m : State) (f : Nat) (woken : Option Nat) (m1 : State) :
      unlock f m = .ok (woken, m1) → Op m m1

/-- Mutex states reached from construction by `lock`, `try_lock`, `try_lock_until` and
`unlock` calls of any fibers. -/
inductive Constructed : State → Prop
  | init : Constructed init
  | step {m m1 : State} : Constructed m → Op m m1 → Constructed m1

/-- Modelled from the spec: where a fiber stands with respect to the mutex, as the
scheduler (fiber_manager, not part of the sources) sees it. `idle`: running outside any
call and not holding the mutex; `holding`: running, has acquired the mutex; `waitL` /
`waitT`: suspended in `fm_wait` inside `lock()` / in `fm_wait_until` inside
`try_lock_until()`; `readyL` / `readyT`: marked ready while so suspended, the next pass
of the loop still to run; `timedOut`: `fm_wait_until` reported a timeout, the timeout
branch still to run. -/
inductive Phase where
  | idle
  | holding
  | waitL
  | waitT
  | readyL
  | readyT
  | timedOut
  deriving DecidableEq, Repr

/-- The mutex together with the phase of every fiber and the log of `set_ready()` calls. -/
structure Run where
  m : State
  phase : Nat → Phase
  marked : List Nat

/-- A freshly constructed mutex, every fiber idle, nobody marked ready. -/
def Run.init : Run :=
  { m := timed_mutex.init, phase := fun _ => .idle, marked := [] }

/-- The phases with that of fiber `f` replaced. -/
def setPhase (phase : Nat → Phase) (f : Nat) (p : Phase) : Nat → Phase :=
  fun g => if g = f then p else phase g

/-- Modelled from the spec: `set_ready()` makes a suspended fiber ready to resume with a
genuine notification; on a fiber that is not suspended it changes nothing. -/
def wake (w : Option Nat) (phase : Nat → Phase) : Nat → Phase :=
  match w with
  | none => phase
  | some g =>
    match phase g with
    | .waitL => setPhase phase g .readyL
    | .waitT => setPhase phase g .readyT
    | _ => phase

/-- The phase of a fiber whose pass ended with `st`, `suspendedIn` being the wait it
enters if the pass suspends it. -/
def afterPass (st : Step) (suspendedIn : Phase) : Phase :=
  match st with
  | .returned true => .holding
  | .returned false => .idle
  | .suspended => suspendedIn

/-- The run after fiber `f` went through the timeout branch of `try_lock_until`: no
`set_ready()` is called on that branch. -/
def Run.afterTimeout (f : Nat) (r : Run) : Run :=
  { m := (try_lock_until_timeout f r.m).2, phase := setPhase r.phase f .idle,
    marked := r.marked }

/-- The run after `unlock()` by fiber `f` left the mutex as `m1` and called `set_ready()`
on `w`. -/
def Run.afterUnlock (f : Nat) (w : Option Nat) (m1 : State) (r : Run) : Run :=
  { m := m1, phase := wake w (setPhase r.phase f .idle), marked := r.marked ++ w.toList }

/-- One atomic step of a run in which a suspended fiber resumes only after `unlock()`
popped it and marked it ready or, in `try_lock_until`, on timeout, and in which only
idle fibers start a call of `lock`, `try_lock_until` or `try_lock`. -/
inductive RunNext : Run → Run → Prop
  | lock (r : Run) (f : Nat) (st : Step) (m1 : State) :
      (r.phase f = .idle ∨ r.phase f = .readyL) → lock_pass f r.m = .ok (st, m1) →
      RunNext r { m := m1, phase := setPhase r.phase f (afterPass st .waitL),
                  marked := r.marked }
  | try_lock (r : Run) (f : Nat) (b : Bool) (m1 : State) :
      r.phase f = .idle → try_lock f r.m = .ok (b, m1) →
      RunNext r { m := m1, phase := setPhase r.phase f (afterPass (.returned b) .idle),
                  marked := r.marked }
  | try_lock_until (r : Run) (f now timeout_time : Nat) (st : Step) (m1 : State) :
      (r.phase f = .idle ∨ r.phase f = .readyT) →
      try_lock_until_pass f now timeout_time r.m = .ok (st, m1) →
      RunNext r { m := m1, phase := setPhase r.phase f (afterPass st .waitT),
                  marked := r.marked }
  | expire (r : Run) (f : Nat) :
      r.phase f = .waitT →
      RunNext r { m := r.m, phase := setPhase r.phase f .timedOut, marked := r.marked }
  | timeout (r : Run) (f : Nat) :
      r.phase f = .timedOut → RunNext r (r.afterTimeout f)
  | unlock (r : Run) (f : Nat) (w : Option Nat) (m1 : State) :
      r.phase f = .holding → unlock f r.m = .ok (w, m1) →
      RunNext r (r.afterUnlock f w m1)

/-- Runs reached from the start. -/
inductive RunReachable : Run → Prop
  | init : RunReachable Run.init
  | step {r r1 : Run} : RunReachable r → RunNext r r1 → RunReachable r1

/-- A run in which fiber 1 holds the mutex, fiber 3 waits in `lock()` and the timed wait
of fiber 2 has just expired, fiber 2 still being in `waiting_`. -/
def expiredRun : Run :=
  { m := { state_ := .locked, owner_ := some 1, waiting_ := [2, 3] },
    phase := fun g => if g = 1 then .holding else if g = 2 then .timedOut
      else if g = 3 then .waitL else .idle,
    marked := [] }

end timed_mutex

/-! ## The queue: auxiliary lemmas -/

namespace fifo

theorem setNext_same (next : Nat → ptr_t) (a : Nat) (v : ptr_t) : setNext next a v a = v := by
  simp [setNext]

theorem setNext_other (next : Nat → ptr_t) (a b : Nat) (v : ptr_t) (h : b ≠ a) :
    setNext next a v b = next b := by
  simp [setNext, h]

theorem chain_congr {next next1 : Nat → ptr_t} {p : ptr_t} {L : List Nat}
    (h : Chain next p L) (hf : ∀ a ∈ L, next1 a = next a) : Chain next1 p L := by
  induction L generalizing p with
  | nil => exact h
  | cons a l ih =>
    obtain ⟨hp, hl⟩ := h
    refine ⟨hp, ?_⟩
    rw [hf a (List.mem_cons_self a l)]
    exact ih hl fun b hb => hf b (List.mem_cons_of_mem a hb)

theorem chain_unique {next : Nat → ptr_t} {p : ptr_t} {L1 L2 : List Nat}
    (h1 : Chain next p L1) (h2 : Chain next p L2) : L1 = L2 := by
  induction L1 generalizing p L2 with
  | nil =>
    cases L2 with
    | nil => rfl
    | cons b l2 =>
      have h1n : p = none := h1
      rw [h1n] at h2
      exact absurd h2.1 (by simp)
  | cons a l1 ih =>
    cases L2 with
    | nil =>
      have h2n : p = none := h2
      rw [h2n] at h1
      exact absurd h1.1 (by simp)
    | cons b l2 =>
      obtain ⟨ha, hl1⟩ := h1
      obtain ⟨hb, hl2⟩ := h2
      rw [ha] at hb
      have hab : a = b := Option.some.inj hb
      subst hab
      rw [ih hl1 hl2]

/-- The last fiber of a chain has an empty next link. -/
theorem chain_last_next {next : Nat → ptr_t} {p : ptr_t} {l : List Nat} {t : Nat}
    (h : Chain next p (l ++ [t])) : next t = none := by
  induction l generalizing p with
  | nil => exact h.2
  | cons a l ih => exact ih h.2

/-- Linking a fresh fiber behind the last one extends the chain by it. -/
theorem chain_snoc {next : Nat → ptr_t} {p : ptr_t} {l : List Nat} {t a : Nat}
    (h : Chain next p (l ++ [t])) (hd : (l ++ [t]).Nodup) (ha : a ∉ l ++ [t])
    (hn : next a = none) : Chain (setNext next t (some a)) p (l ++ [t] ++ [a]) := by
  induction l generalizing p with
  | nil =>
    obtain ⟨hp, _⟩ := h
    have hat : a ≠ t := by
      intro e
      exact ha (by simp [e])
    refine ⟨hp, ?_, ?_⟩
    · exact setNext_same next t (some a)
    · show setNext next t (some a) a = none
      rw [setNext_other next t a _ hat]
      exact hn
  | cons b l ih =>
    obtain ⟨hp, hl⟩ := h
    have hbt : b ≠ t := by
      intro e
      have hnd : b ∉ l ++ [t] := (List.nodup_cons.mp hd).1
      exact hnd (by simp [e])
    refine ⟨hp, ?_⟩
    rw [setNext_other next t b _ hbt]
    exact ih hl (List.nodup_cons.mp hd).2 fun hm => ha (List.mem_cons_of_mem b hm)

theorem holds_head_nil {s : State} (h : Holds s []) : s.head_ = none ∧ s.tail_ = none :=
  ⟨h.1, h.2.2⟩

theorem holds_head_cons {s : State} {a : Nat} {l : List Nat} (h : Holds s (a :: l)) :
    s.head_ = some a := h.1.1

theorem holds_tail_concat {s : State} {l : List Nat} {t : Nat} (h : Holds s (l ++ [t])) :
    s.tail_ = some t := by
  rw [h.2.2]
  simp

/-- Effect of `push` on the abstraction: the fresh fiber is appended and only the old
tail's link is written. -/
theorem push_holds {s : State} {L : List Nat} {a : Nat} (h : Holds s L) (ha : a ∉ L)
    (hn : s.next a = none) :
    ∃ s1, push s (some a) = .ok s1 ∧ Holds s1 (L ++ [a]) ∧
      (∀ b, b ∉ L → s1.next b = s.next b) := by
  rcases List.eq_nil_or_concat L with hL | ⟨l, t, hL⟩
  · subst hL
    obtain ⟨hh, _⟩ := holds_head_nil h
    refine ⟨{ next := s.next, head_ := some a, tail_ := some a }, ?_, ?_, ?_⟩
    · simp [push, empty, hh]
    · exact ⟨⟨rfl, hn⟩, by simp, by simp⟩
    · intro b _
      rfl
  · rw [List.concat_eq_append] at hL
    subst hL
    have ht := holds_tail_concat h
    have hh : s.head_.isNone = false := by
      cases l with
      | nil => rw [holds_head_cons (l := []) (a := t) h]; rfl
      | cons x l => rw [holds_head_cons (l := l ++ [t]) (a := x) h]; rfl
    refine ⟨{ next := setNext s.next t (some a), head_ := s.head_, tail_ := some a }, ?_, ?_, ?_⟩
    · simp [push, empty, hh, ht, setNext_same]
    · refine ⟨chain_snoc h.1 h.2.1 ha hn, ?_, by simp⟩
      rw [List.nodup_append]
      refine ⟨h.2.1, by simp, ?_⟩
      intro x hx hx1
      have hxa : x = a := by simpa using hx1
      exact ha (hxa ▸ hx)
    · intro b hb
      apply setNext_other
      intro e
      exact hb (by simp [e])

/-- Effect of `pop` on the abstraction: the head is returned, its link is empty
afterwards, and no other link is written. -/
theorem pop_holds {s : State} {a : Nat} {l : List Nat} (h : Holds s (a :: l)) :
    ∃ s1, pop s = .ok (some a, s1) ∧ Holds s1 l ∧ s1.next a = none ∧
      (∀ b, b ≠ a → s1.next b = s.next b) := by
  have hh := holds_head_cons h
  obtain ⟨⟨_, hc⟩, hd, ht⟩ := h
  cases l with
  | nil =>
    have hna : s.next a = none := hc
    refine ⟨{ next := s.next, head_ := none, tail_ := none }, ?_, ?_, hna, fun _ _ => rfl⟩
    · simp [pop, empty, hh, hna]
    · exact ⟨rfl, by simp, rfl⟩
  | cons b l =>
    have hnb : s.next a = some b := hc.1
    have hal : a ∉ b :: l := (List.nodup_cons.mp hd).1
    refine ⟨{ next := setNext s.next a none, head_ := some b, tail_ := s.tail_ }, ?_, ?_,
      setNext_same _ _ _, fun b hb => setNext_other _ _ _ _ hb⟩
    · simp [pop, empty, hh, hnb]
    · refine ⟨⟨rfl, ?_⟩, (List.nodup_cons.mp hd).2, ?_⟩
      · have hba : b ≠ a := fun e => hal (by simp [e])
        show Chain (setNext s.next a none) (setNext s.next a none b) l
        rw [setNext_other _ _ _ _ hba]
        refine chain_congr hc.2 fun x hx => setNext_other _ _ _ _ ?_
        intro e
        exact hal (by simp [← e, hx])
      · show s.tail_ = (b :: l).getLast?
        rw [ht]
        simp [List.getLast?_cons_cons]

theorem pushAll_holds {s : State} {L : List Nat} (hs : List Nat) (h : Holds s L)
    (hd : hs.Nodup) (hf : ∀ a ∈ hs, a ∉ L ∧ s.next a = none) :
    ∃ s1, pushAll s (hs.map some) = .ok s1 ∧ Holds s1 (L ++ hs) := by
  induction hs generalizing s L with
  | nil => exact ⟨s, rfl, by simpa using h⟩
  | cons a hs ih =>
    obtain ⟨haL, han⟩ := hf a (List.mem_cons_self a hs)
    obtain ⟨s1, hp, hh, hfr⟩ := push_holds h haL han
    have hd1 := List.nodup_cons.mp hd
    obtain ⟨s2, hp2, hh2⟩ := ih hh hd1.2 (by
      intro b hb
      obtain ⟨hbL, hbn⟩ := hf b (List.mem_cons_of_mem a hb)
      refine ⟨?_, ?_⟩
      · intro hm
        rcases List.mem_append.mp hm with hm | hm
        · exact hbL hm
        · have hba : b = a := by simpa using hm
          exact hd1.1 (hba ▸ hb)
      · rw [hfr b hbL]
        exact hbn)
    refine ⟨s2, ?_, by simpa using hh2⟩
    simp only [List.map_cons, pushAll, hp, Except.bind]
    exact hp2

theorem popN_holds {s : State} (l1 l2 : List Nat) (h : Holds s (l1 ++ l2)) :
    ∃ s1, popN l1.length s = .ok (l1.map some, s1) ∧ Holds s1 l2 ∧
      (∀ b, b ∉ l1 → s1.next b = s.next b) := by
  induction l1 generalizing s with
  | nil => exact ⟨s, rfl, h, fun _ _ => rfl⟩
  | cons a l1 ih =>
    obtain ⟨s1, hp, hh, _, hfr⟩ := pop_holds (l := l1 ++ l2) h
    obtain ⟨s2, hp2, hh2, hfr2⟩ := ih hh
    refine ⟨s2, ?_, hh2, ?_⟩
    · simp only [List.length_cons, popN, hp, Except.bind, hp2, Except.map, List.map_cons]
    · intro b hb
      rw [hfr2 b (fun hm => hb (List.mem_cons_of_mem a hm))]
      exact hfr b (fun e => hb (by simp [e]))

theorem sizeLoop_chain {next : Nat → ptr_t} {p : ptr_t} {L : List Nat} (h : Chain next p L)
    (fuel c : Nat) (hf : L.length ≤ fuel) : sizeLoop next fuel p c = .ok (c + L.length) := by
  induction L generalizing p fuel c with
  | nil =>
    have hp : p = none := h
    subst hp
    cases fuel <;> simp [sizeLoop]
  | cons a l ih =>
    obtain ⟨hp, hl⟩ := h
    subst hp
    cases fuel with
    | zero => simp at hf
    | succ k =>
      simp only [sizeLoop]
      rw [ih hl k (c + 1) (by simpa using hf)]
      simp only [List.length_cons]
      congr 1
      omega

theorem sizeLoop_ok_chain {next : Nat → ptr_t} (fuel : Nat) (p : ptr_t) (c m : Nat)
    (h : sizeLoop next fuel p c = .ok m) : ∃ L, Chain next p L ∧ m = c + L.length := by
  induction fuel generalizing p c with
  | zero =>
    cases p with
    | none =>
      simp only [sizeLoop, Except.ok.injEq] at h
      exact ⟨[], rfl, by simp [h]⟩
    | some a => simp [sizeLoop] at h
  | succ k ih =>
    cases p with
    | none =>
      simp only [sizeLoop, Except.ok.injEq] at h
      exact ⟨[], rfl, by simp [h]⟩
    | some a =>
      simp only [sizeLoop] at h
      obtain ⟨L, hL, hm⟩ := ih (next a) (c + 1) h
      refine ⟨a :: L, ⟨rfl, hL⟩, ?_⟩
      simp only [List.length_cons]
      omega

theorem follow_none (next : Nat → ptr_t) (k : Nat) : follow next k none = none := by
  induction k with
  | zero => rfl
  | succ k ih => exact ih

theorem follow_chain {next : Nat → ptr_t} {p : ptr_t} {L : List Nat} (h : Chain next p L)
    (i : Nat) : follow next i p = L[i]? := by
  induction L generalizing p i with
  | nil =>
    have hp : p = none := h
    subst hp
    simp [follow_none]
  | cons a l ih =>
    obtain ⟨hp, hl⟩ := h
    subst hp
    cases i with
    | zero => simp [follow]
    | succ i =>
      simp only [follow, Option.some_bind, List.getElem?_cons_succ]
      exact ih hl i

theorem member_iff_mem {s : State} {L : List Nat} (h : Contents s L) (a : Nat) :
    Member s a ↔ a ∈ L := by
  unfold Member
  rw [List.mem_iff_getElem?]
  constructor
  · rintro ⟨k, hk⟩
    exact ⟨k, by rw [← follow_chain h k]; exact hk⟩
  · rintro ⟨k, hk⟩
    exact ⟨k, by rw [follow_chain h k]; exact hk⟩

theorem holds_wellFormed {s : State} {L : List Nat} (h : Holds s L) : WellFormed s := by
  obtain ⟨hc, hd, ht⟩ := h
  refine ⟨?_, ?_, L.length, ⟨L.length, ?_⟩, ?_, ?_⟩
  · rcases List.eq_nil_or_concat L with hL | ⟨l, t, hL⟩
    · subst hL
      have hh : s.head_ = none := hc
      simp [hh, ht]
    · rw [List.concat_eq_append] at hL
      subst hL
      have hh : s.head_ ≠ none := by
        cases l with
        | nil => rw [hc.1]; simp
        | cons x l => rw [hc.1]; simp
      simp [hh, ht]
  · intro t htt
    rcases List.eq_nil_or_concat L with hL | ⟨l, t1, hL⟩
    · subst hL
      rw [htt] at ht
      simp at ht
    · rw [List.concat_eq_append] at hL
      subst hL
      rw [htt] at ht
      have e : t = t1 := by simpa using ht
      subst e
      exact chain_last_next hc
  · have := sizeLoop_chain hc L.length 0 le_rfl
    simpa [size] using this
  · intro i j hij hj
    rw [follow_chain hc i, follow_chain hc j]
    exact List.nodup_iff_getElem?_ne_getElem?.mp hd i j hij hj
  · intro _
    rw [follow_chain hc, ht, List.getLast?_eq_getElem?]

theorem wellFormed_holds {s : State} (h : WellFormed s) : ∃ L, Holds s L := by
  obtain ⟨hht, _, n, ⟨fuel, hsz⟩, hdist, hlast⟩ := h
  obtain ⟨L, hc, hn⟩ := sizeLoop_ok_chain fuel s.head_ 0 n hsz
  have hn1 : n = L.length := by omega
  subst hn1
  refine ⟨L, hc, ?_, ?_⟩
  · rw [List.nodup_iff_getElem?_ne_getElem?]
    intro i j hij hj
    rw [← follow_chain hc i, ← follow_chain hc j]
    exact hdist i j hij hj
  · cases L with
    | nil =>
      have hh : s.head_ = none := hc
      simpa using hht.mp hh
    | cons a l =>
      rw [← hlast (by simp), follow_chain hc, List.getLast?_eq_getElem?]

/-- A well-formed queue with contents `L` is exactly one that holds `L`. -/
theorem holds_iff {s : State} {L : List Nat} : Holds s L ↔ WellFormed s ∧ Contents s L := by
  constructor
  · intro h
    exact ⟨holds_wellFormed h, h.1⟩
  · rintro ⟨hw, hc⟩
    obtain ⟨L1, h1⟩ := wellFormed_holds hw
    have e : L1 = L := chain_unique h1.1 hc
    exact e ▸ h1

/-- The state `erase` leaves when it finds `a` behind its predecessor `x`. -/
theorem eraseLoop_found {s : State} {x a : Nat} {l2 : List Nat} (l1 : List Nat) (p : ptr_t)
    (fuel : Nat) (h : Chain s.next p (l1 ++ x :: a :: l2)) (hal : a ∉ l1) (hax : a ≠ x)
    (hf : l1.length + 1 ≤ fuel) :
    eraseLoop (some a) fuel s p = .ok
      { next := setNext (setNext s.next x (s.next a)) a none, head_ := s.head_,
        tail_ := if s.tail_ = some a then some x else s.tail_ } := by
  induction l1 generalizing p fuel with
  | nil =>
    obtain ⟨hp, hxa, _⟩ := h
    subst hp
    cases fuel with
    | zero => simp at hf
    | succ k => simp [eraseLoop, hxa]
  | cons y l1 ih =>
    obtain ⟨hp, hl⟩ := h
    subst hp
    cases fuel with
    | zero => simp at hf
    | succ k =>
      have hal1 : a ∉ l1 := fun hm => hal (List.mem_cons_of_mem y hm)
      cases l1 with
      | nil =>
        have hyx : s.next y = some x := hl.1
        have := ih (s.next y) k hl hal1 (by simpa using hf)
        rw [hyx] at this
        simp [eraseLoop, hyx, hax, this]
      | cons z l1 =>
        have hyz : s.next y = some z := hl.1
        have haz : a ≠ z := fun e => hal (by simp [e])
        have := ih (s.next y) k hl hal1 (by simpa using hf)
        rw [hyz] at this
        simp [eraseLoop, hyz, haz, this]

/-- A scan that never meets `a` as a successor returns with the queue untouched. -/
theorem eraseLoop_notfound {s : State} {a : Nat} (L : List Nat) (p : ptr_t) (fuel : Nat)
    (h : Chain s.next p L) (ha : a ∉ L.tail) (hf : L.length ≤ fuel) :
    eraseLoop (some a) fuel s p = .ok s := by
  induction L generalizing p fuel with
  | nil =>
    have hp : p = none := h
    subst hp
    cases fuel <;> simp [eraseLoop]
  | cons y l ih =>
    obtain ⟨hp, hl⟩ := h
    subst hp
    cases fuel with
    | zero => simp at hf
    | succ k =>
      cases l with
      | nil =>
        have hy : s.next y = none := hl
        simp [eraseLoop, hy]
      | cons z l =>
        have hyz : s.next y = some z := hl.1
        have haz : a ≠ z := fun e => ha (by simp [e])
        have := ih (s.next y) k hl (fun hm => ha (List.mem_cons_of_mem z hm)) (by simpa using hf)
        rw [hyz] at this
        simp [eraseLoop, hyz, haz, this]

/-- Unlinking `a` from behind `x` in the heap removes it from the chain. -/
theorem chain_unlink {next : Nat → ptr_t} {x a : Nat} {l2 : List Nat} (l1 : List Nat)
    (p : ptr_t) (h : Chain next p (l1 ++ x :: a :: l2)) (hd : (l1 ++ x :: a :: l2).Nodup) :
    Chain (setNext (setNext next x (next a)) a none) p (l1 ++ x :: l2) := by
  induction l1 generalizing p with
  | nil =>
    obtain ⟨hp, _, hl2⟩ := h
    have hd1 := List.nodup_cons.mp hd
    have hd2 := List.nodup_cons.mp hd1.2
    have hxa : x ≠ a := fun e => hd1.1 (by simp [e])
    refine ⟨hp, ?_⟩
    rw [setNext_other _ _ _ _ hxa, setNext_same]
    refine chain_congr hl2 fun b hb => ?_
    have hba : b ≠ a := fun e => hd2.1 (e ▸ hb)
    have hbx : b ≠ x := fun e => hd1.1 (by simp [← e, hb])
    rw [setNext_other _ _ _ _ hba, setNext_other _ _ _ _ hbx]
  | cons y l1 ih =>
    obtain ⟨hp, hl⟩ := h
    have hd1 := List.nodup_cons.mp hd
    have hya : y ≠ a := fun e => hd1.1 (by simp [e])
    have hyx : y ≠ x := fun e => hd1.1 (by simp [e])
    refine ⟨hp, ?_⟩
    rw [setNext_other _ _ _ _ hya, setNext_other _ _ _ _ hyx]
    exact ih (next y) hl hd1.2

theorem holds_not_empty {s : State} {a : Nat} {l : List Nat} (h : Holds s (a :: l)) :
    empty s = false := by
  simp [empty, holds_head_cons h]

theorem erase_head {s : State} {a : Nat} {l : List Nat} (h : Holds s (a :: l)) (fuel : Nat) :
    erase fuel s (some a) = (pop s).map Prod.snd := by
  simp [erase, holds_not_empty h, holds_head_cons h]

theorem erase_interior {s : State} {x a : Nat} {l1 l2 : List Nat}
    (h : Holds s (l1 ++ x :: a :: l2)) (fuel : Nat) (hf : l1.length + 1 ≤ fuel) :
    erase fuel s (some a) = .ok
        { next := setNext (setNext s.next x (s.next a)) a none, head_ := s.head_,
          tail_ := if s.tail_ = some a then some x else s.tail_ } ∧
      Holds { next := setNext (setNext s.next x (s.next a)) a none, head_ := s.head_,
              tail_ := if s.tail_ = some a then some x else s.tail_ } (l1 ++ x :: l2) := by
  obtain ⟨hc, hd, ht⟩ := h
  have hal : a ∉ l1 ++ [x] := by
    have h2 : (l1 ++ [x] ++ a :: l2).Nodup := by simpa using hd
    exact fun hm => (List.nodup_append.mp h2).2.2 hm (List.mem_cons_self a l2)
  have hal1 : a ∉ l1 := fun hm => hal (List.mem_append_left _ hm)
  have hax : a ≠ x := fun e => hal (by simp [e])
  have hhead : ∃ y, s.head_ = some y ∧ y ≠ a := by
    cases l1 with
    | nil => exact ⟨x, hc.1, fun e => hax e.symm⟩
    | cons y l1 => exact ⟨y, hc.1, fun e => hal1 (by simp [e])⟩
  obtain ⟨y, hy, hya⟩ := hhead
  refine ⟨?_, chain_unlink l1 s.head_ hc hd, ?_, ?_⟩
  · have hne : ¬ (a = y) := fun e => hya e.symm
    have := eraseLoop_found l1 s.head_ fuel hc hal1 hax hf
    rw [hy] at this
    simp [erase, empty, hy, hne, this]
  · have h2 : (l1 ++ x :: l2).Sublist (l1 ++ x :: a :: l2) :=
      List.Sublist.append_left (List.Sublist.cons₂ x (List.sublist_cons_self a l2)) l1
    exact hd.sublist h2
  · show (if s.tail_ = some a then some x else s.tail_) = (l1 ++ x :: l2).getLast?
    rcases List.eq_nil_or_concat l2 with hl2 | ⟨l3, t, hl2⟩
    · subst hl2
      have hta : s.tail_ = some a := by
        rw [ht]
        have e : l1 ++ [x, a] = (l1 ++ [x]) ++ [a] := by simp
        rw [e, List.getLast?_concat]
      have e2 : l1 ++ [x] = l1 ++ [x] := rfl
      simp [hta, List.getLast?_concat]
    · rw [List.concat_eq_append] at hl2
      subst hl2
      have e1 : l1 ++ x :: a :: (l3 ++ [t]) = (l1 ++ x :: a :: l3) ++ [t] := by simp
      have e2 : l1 ++ x :: (l3 ++ [t]) = (l1 ++ x :: l3) ++ [t] := by simp
      have htt : s.tail_ = some t := by rw [ht, e1, List.getLast?_concat]
      have hta : t ≠ a := by
        intro e
        have h3 : (a :: (l3 ++ [t])).Nodup :=
          (List.nodup_cons.mp (List.nodup_append.mp hd).2.1).2
        exact (List.nodup_cons.mp h3).1 (by simp [e])
      rw [e2, List.getLast?_concat, htt]
      simp [hta]

/-- Erasing a member: the queue afterwards holds the list without it. -/
theorem erase_mem_holds {s : State} {L : List Nat} {a : Nat} (h : Holds s L) (ha : a ∈ L)
    (fuel : Nat) (hf : L.length ≤ fuel) :
    ∃ s1, erase fuel s (some a) = .ok s1 ∧ Holds s1 (L.erase a) ∧ s1.next a = none ∧
      (∀ b, b ∉ L → s1.next b = s.next b) := by
  obtain ⟨pre, l2, hL, hpre⟩ := List.eq_append_cons_of_mem ha
  subst hL
  rcases List.eq_nil_or_concat pre with hp | ⟨l1, x, hp⟩
  · subst hp
    obtain ⟨s1, hpop, hh, hn, hfr⟩ := pop_holds (l := l2) h
    refine ⟨s1, ?_, by simpa using hh, hn, ?_⟩
    · rw [erase_head (l := l2) h, hpop]
      rfl
    · intro b hb
      exact hfr b (fun e => hb (by simp [e]))
  · rw [List.concat_eq_append] at hp
    subst hp
    have e : l1 ++ [x] ++ a :: l2 = l1 ++ x :: a :: l2 := by simp
    rw [e] at h
    obtain ⟨he, hh⟩ := erase_interior h fuel (by
      simp only [List.length_append, List.length_cons, List.length_singleton] at hf
      omega)
    refine ⟨_, he, ?_, ?_, ?_⟩
    · rw [List.erase_append_right _ hpre, List.erase_cons_head]
      simpa using hh
    · exact setNext_same _ _ _
    · intro b hb
      have hba : b ≠ a := fun e1 => hb (by simp [e1])
      have hbx : b ≠ x := fun e1 => hb (by simp [e1])
      show setNext (setNext s.next x (s.next a)) a none b = s.next b
      rw [setNext_other _ _ _ _ hba, setNext_other _ _ _ _ hbx]

/-- Erasing a handle that is not linked returns with the queue untouched. -/
theorem erase_not_mem {s : State} {L : List Nat} {a : Nat} (h : Holds s L) (hne : L ≠ [])
    (ha : a ∉ L) (fuel : Nat) (hf : L.length ≤ fuel) : erase fuel s (some a) = .ok s := by
  cases L with
  | nil => exact absurd rfl hne
  | cons y l =>
    have hy := holds_head_cons h
    have hay : ¬ (a = y) := fun e => ha (by simp [e])
    have := eraseLoop_notfound (s := s) (a := a) (y :: l) s.head_ fuel h.1
      (fun hm => ha (List.mem_cons_of_mem y hm)) hf
    rw [hy] at this
    simp [erase, empty, hy, hay, this]

theorem findLoop_not_mem {next : Nat → ptr_t} {a : Nat} (L : List Nat) (p : ptr_t)
    (fuel : Nat) (h : Chain next p L) (ha : a ∉ L) (hf : L.length ≤ fuel) :
    findLoop next (some a) fuel p = .ok none := by
  induction L generalizing p fuel with
  | nil =>
    have hp : p = none := h
    subst hp
    cases fuel <;> simp [findLoop]
  | cons y l ih =>
    obtain ⟨hp, hl⟩ := h
    subst hp
    cases fuel with
    | zero => simp at hf
    | succ k =>
      have hay : ¬ (a = y) := fun e => ha (by simp [e])
      simp only [findLoop, Option.some.injEq, hay, if_false]
      exact ih (next y) k hl (fun hm => ha (List.mem_cons_of_mem y hm)) (by simpa using hf)

theorem findLoop_mem {next : Nat → ptr_t} {a : Nat} (L : List Nat) (p : ptr_t)
    (fuel : Nat) (h : Chain next p L) (ha : a ∈ L) (hf : L.length ≤ fuel) :
    findLoop next (some a) fuel p = .ok (some a) := by
  induction L generalizing p fuel with
  | nil => simp at ha
  | cons y l ih =>
    obtain ⟨hp, hl⟩ := h
    subst hp
    cases fuel with
    | zero => simp at hf
    | succ k =>
      by_cases hay : a = y
      · simp [findLoop, hay]
      · simp only [findLoop, Option.some.injEq, hay, if_false]
        have hal : a ∈ l := by
          rcases List.mem_cons.mp ha with e | hm
          · exact absurd e hay
          · exact hm
        exact ih (next y) k hl hal (by simpa using hf)

theorem chain_append_right {next : Nat → ptr_t} {r : Nat} {R : List Nat} (K : List Nat)
    (p : ptr_t) (h : Chain next p (K ++ r :: R)) : Chain next (next r) R := by
  induction K generalizing p with
  | nil => exact h.2
  | cons y K ih => exact ih (next y) h.2

theorem chain_head? {next : Nat → ptr_t} {p : ptr_t} {L : List Nat} (h : Chain next p L) :
    p = L.head? := by
  cases L with
  | nil => exact h
  | cons a l => exact h.1

/-- Loop invariant of `move_to`: with `K` the members already passed and kept and `R` the
members still ahead, the queue holds `K ++ R` every time the loop test is reached. -/
theorem move_toLoop_holds (fn : Nat → Bool) (R : List Nat) :
    ∀ (K : List Nat) (s : State) (queue : List ptr_t) (prev : ptr_t) (fuel : Nat),
      Holds s (K ++ R) → (K ≠ [] → prev = K.getLast?) → R.length ≤ fuel →
      ∃ s1, move_toLoop fn fuel s queue R.head? prev =
            .ok (s1, queue ++ (R.filter fn).map some) ∧
        Holds s1 (K ++ R.filter fun b => !fn b) ∧
        (∀ b ∈ R, fn b = true → s1.next b = none) ∧
        (∀ b, b ∉ K ++ R → s1.next b = s.next b) := by
  induction R with
  | nil =>
    intro K s queue prev fuel h _ _
    refine ⟨s, ?_, by simpa using h, by simp, fun _ _ => rfl⟩
    cases fuel <;> simp [move_toLoop]
  | cons r R ih =>
    intro K s queue prev fuel h hprev hf
    cases fuel with
    | zero => simp at hf
    | succ k =>
      have hk : R.length ≤ k := by simpa using hf
      have hnxt : s.next r = R.head? := chain_head? (chain_append_right K s.head_ h.1)
      have hrK : r ∉ K := by
        intro hm
        exact (List.nodup_append.mp h.2.1).2.2 hm (List.mem_cons_self r R)
      have hrR : r ∉ R := (List.nodup_cons.mp (List.nodup_append.mp h.2.1).2.1).1
      cases hfn : fn r with
      | false =>
        have h1 : Holds s ((K ++ [r]) ++ R) := by simpa using h
        obtain ⟨s1, hm, hh, hmv, hfr⟩ := ih (K ++ [r]) s queue (some r) k h1 (by simp) hk
        refine ⟨s1, ?_, ?_, ?_, ?_⟩
        · rw [← hnxt] at hm
          simpa [move_toLoop, hfn] using hm
        · simpa [hfn] using hh
        · intro b hb hfb
          rcases List.mem_cons.mp hb with e | hbR
          · rw [e, hfn] at hfb
            exact absurd hfb (by simp)
          · exact hmv b hbR hfb
        · intro b hb
          exact hfr b (by simpa using hb)
      | true =>
        rcases List.eq_nil_or_concat K with hK | ⟨K0, x, hK⟩
        · subst hK
          have hhd : s.head_ = some r := h.1.1
          have hc : Chain s.next (s.next r) R := h.1.2
          have hd : R.Nodup := (List.nodup_cons.mp h.2.1).2
          have hcR : Chain (setNext s.next r none) (s.next r) R :=
            chain_congr hc fun b hb => setNext_other _ _ _ _ (fun e => hrR (e ▸ hb))
          cases R with
          | nil =>
            have hn : s.next r = none := hc
            refine ⟨{ next := setNext s.next r none, head_ := none, tail_ := none },
              ?_, ?_, ?_, ?_⟩
            · cases k <;> simp [move_toLoop, hfn, hhd, hn]
            · have h0 : Holds { next := setNext s.next r none, head_ := none, tail_ := none }
                  [] := ⟨rfl, by simp, rfl⟩
              simpa [hfn] using h0
            · intro b hb _
              have e : b = r := by simpa using hb
              subst e
              exact setNext_same _ _ _
            · intro b hb
              exact setNext_other _ _ _ _ (fun e => hb (by simp [e]))
          | cons z R =>
            have hn : s.next r = some z := hc.1
            have h1 : Holds { next := setNext s.next r none, head_ := some z, tail_ := s.tail_ }
                ([] ++ z :: R) := by
              refine ⟨?_, hd, ?_⟩
              · rw [hn] at hcR
                exact hcR
              · show s.tail_ = (z :: R).getLast?
                rw [h.2.2]
                simp [List.getLast?_cons_cons]
            obtain ⟨s1, hm, hh, hmv, hfr⟩ := ih [] _ (queue ++ [some r]) (some z) k h1
              (fun hne => absurd rfl hne) hk
            refine ⟨s1, ?_, ?_, ?_, ?_⟩
            · simp only [List.head?_cons] at hm
              simpa [move_toLoop, hfn, hhd, hn] using hm
            · simpa [hfn] using hh
            · intro b hb hfb
              rcases List.mem_cons.mp hb with e | hbR
              · subst e
                rw [hfr b (by simpa using hrR)]
                exact setNext_same _ _ _
              · exact hmv b hbR hfb
            · intro b hb
              have hbr : b ≠ r := fun e => hb (by simp [e])
              rw [hfr b (fun hm1 => hb (by simpa using Or.inr hm1))]
              exact setNext_other _ _ _ _ hbr
        · rw [List.concat_eq_append] at hK
          subst hK
          have hpv : prev = some x := by
            rw [hprev (by simp)]
            simp
          subst hpv
          have e0 : K0 ++ [x] ++ r :: R = K0 ++ x :: r :: R := by simp
          have hc : Chain s.next s.head_ (K0 ++ x :: r :: R) := e0 ▸ h.1
          have hd : (K0 ++ x :: r :: R).Nodup := e0 ▸ h.2.1
          have hhd : ¬ (some r = s.head_) := by
            intro e
            cases K0 with
            | nil =>
              have hx : s.head_ = some x := hc.1
              rw [hx] at e
              exact hrK (by simp [Option.some.inj e])
            | cons y K0 =>
              have hy : s.head_ = some y := hc.1
              rw [hy] at e
              exact hrK (by simp [Option.some.inj e])
          have h1 : Holds
              { next := setNext (setNext s.next x (s.next r)) r none,
                head_ := s.head_,
                tail_ := if s.next r = none then some x else s.tail_ }
              ((K0 ++ [x]) ++ R) := by
            refine ⟨?_, ?_, ?_⟩
            · have := chain_unlink K0 s.head_ hc hd
              simpa using this
            · have h2 : ((K0 ++ [x]) ++ R).Sublist (K0 ++ [x] ++ r :: R) :=
                List.Sublist.append_left (List.sublist_cons_self r R) (K0 ++ [x])
              exact h.2.1.sublist h2
            · show (if s.next r = none then some x else s.tail_) = ((K0 ++ [x]) ++ R).getLast?
              cases R with
              | nil => simp [hnxt]
              | cons z R =>
                have ht := h.2.2
                rw [e0] at ht
                simp only [hnxt, List.head?_cons]
                rw [ht]
                simp [List.getLast?_cons_cons]
          obtain ⟨s1, hm, hh, hmv, hfr⟩ := ih (K0 ++ [x]) _ (queue ++ [some r]) (some x) k h1
            (by simp) hk
          refine ⟨s1, ?_, ?_, ?_, ?_⟩
          · rw [← hnxt] at hm
            simpa [move_toLoop, hfn, hhd] using hm
          · simpa [hfn] using hh
          · intro b hb hfb
            rcases List.mem_cons.mp hb with e | hbR
            · subst e
              rw [hfr b (by
                intro hm1
                rcases List.mem_append.mp hm1 with hm2 | hm2
                · exact hrK hm2
                · exact hrR hm2)]
              exact setNext_same _ _ _
            · exact hmv b hbR hfb
          · intro b hb
            have hbr : b ≠ r := fun e => hb (by simp [e])
            have hbx : b ≠ x := fun e => hb (by simp [e])
            rw [hfr b (fun hm1 => hb (by
              rcases List.mem_append.mp hm1 with hm2 | hm2
              · exact List.mem_append_left _ hm2
              · exact List.mem_append_right _ (List.mem_cons_of_mem r hm2)))]
            show setNext (setNext s.next x (s.next r)) r none b = s.next b
            rw [setNext_other _ _ _ _ hbr, setNext_other _ _ _ _ hbx]

/-- A pass of `move_to` over members none of which is selected changes nothing. -/
theorem move_toLoop_none {fn : Nat → Bool} {s : State} (L : List Nat) (p prev : ptr_t)
    (queue : List ptr_t) (fuel : Nat) (h : Chain s.next p L) (hfn : ∀ a ∈ L, fn a = false)
    (hf : L.length ≤ fuel) : move_toLoop fn fuel s queue p prev = .ok (s, queue) := by
  induction L generalizing p prev fuel with
  | nil =>
    have hp : p = none := h
    subst hp
    cases fuel <;> simp [move_toLoop]
  | cons y l ih =>
    obtain ⟨hp, hl⟩ := h
    subst hp
    cases fuel with
    | zero => simp at hf
    | succ k =>
      have hy : fn y = false := hfn y (List.mem_cons_self y l)
      have := ih (s.next y) (some y) k hl (fun a ha => hfn a (List.mem_cons_of_mem y ha))
        (by simpa using hf)
      simpa [move_toLoop, hy] using this

theorem init_holds (next : Nat → ptr_t) : Holds (init next) [] :=
  ⟨rfl, List.nodup_nil, rfl⟩

theorem holds_empty_iff {s : State} {L : List Nat} (h : Holds s L) :
    empty s = true ↔ L = [] := by
  cases L with
  | nil => simp [empty, (holds_head_nil h).1]
  | cons a l => simp [empty, holds_head_cons h]

theorem holds_size {s : State} {L : List Nat} (h : Holds s L) (fuel : Nat)
    (hf : L.length ≤ fuel) : size fuel s = .ok L.length := by
  have := sizeLoop_chain h.1 fuel 0 hf
  simpa [size] using this

/-- More fuel does not change a result of the scan of `erase`. -/
theorem eraseLoop_mono {item : ptr_t} {s s1 : State} (k k1 : Nat) (p : ptr_t)
    (h : eraseLoop item k s p = .ok s1) (hk : k ≤ k1) : eraseLoop item k1 s p = .ok s1 := by
  induction k generalizing p k1 with
  | zero =>
    cases p with
    | none => cases k1 <;> simpa [eraseLoop] using h
    | some x => simp [eraseLoop] at h
  | succ k ih =>
    cases p with
    | none => cases k1 <;> simpa [eraseLoop] using h
    | some x =>
      cases k1 with
      | zero => omega
      | succ k1 =>
        simp only [eraseLoop] at h ⊢
        cases hn : s.next x with
        | none =>
          simp only [hn] at h ⊢
          exact h
        | some n =>
          simp only [hn] at h ⊢
          by_cases hi : item = some n
          · simp only [hi, if_true] at h ⊢
            exact h
          · simp only [hi, if_false] at h ⊢
            exact ih k1 (some n) h (by omega)

theorem erase_mono {item : ptr_t} {s s1 : State} (k k1 : Nat)
    (h : erase k s item = .ok s1) (hk : k ≤ k1) : erase k1 s item = .ok s1 := by
  cases item with
  | none => simp [erase] at h
  | some a =>
    simp only [erase] at h ⊢
    by_cases he : empty s = true
    · simp [he] at h
    · by_cases hh : some a = s.head_
      · simp only [he, hh, if_true, if_false] at h ⊢
        simpa using h
      · simp only [he, hh, if_false] at h ⊢
        exact eraseLoop_mono k k1 s.head_ (by simpa using h) hk

/-- What `erase` leaves in terms of the abstraction, whether the handle is linked or not. -/
theorem erase_holds {s : State} {L : List Nat} (a : Nat) (h : Holds s L) (hne : L ≠ [])
    (fuel : Nat) (hf : L.length ≤ fuel) :
    ∃ s1, erase fuel s (some a) = .ok s1 ∧ Holds s1 (L.erase a) := by
  by_cases ha : a ∈ L
  · obtain ⟨s1, he, hh, _⟩ := erase_mem_holds h ha fuel hf
    exact ⟨s1, he, hh⟩
  · refine ⟨s, erase_not_mem h hne ha fuel hf, ?_⟩
    rw [List.erase_of_not_mem ha]
    exact h

theorem reachable_holds {s : State} (h : Reachable s) : ∃ L, Holds s L := by
  induction h with
  | init next => exact ⟨[], init_holds next⟩
  | push a _ hm hn hp ih =>
    obtain ⟨L, hL⟩ := ih
    have haL : a ∉ L := fun hmem => hm ((member_iff_mem hL.1 a).mpr hmem)
    obtain ⟨s2, hp2, hh, _⟩ := push_holds hL haL hn
    rw [hp] at hp2
    cases hp2
    exact ⟨_, hh⟩
  | pop r _ hp ih =>
    obtain ⟨L, hL⟩ := ih
    cases L with
    | nil => simp [pop, empty, (holds_head_nil hL).1] at hp
    | cons a l =>
      obtain ⟨s2, hp2, hh, _⟩ := pop_holds hL
      rw [hp] at hp2
      cases hp2
      exact ⟨_, hh⟩
  | @erase s0 s1 fuel a _ he ih =>
    obtain ⟨L, hL⟩ := ih
    cases L with
    | nil => simp [erase, empty, (holds_head_nil hL).1] at he
    | cons y l =>
      obtain ⟨s2, he2, hh⟩ := erase_holds a hL (by simp) (max fuel (y :: l).length)
        (le_max_right _ _)
      rw [erase_mono fuel _ he (le_max_left _ _)] at he2
      cases he2
      exact ⟨_, hh⟩

/-! ## The queue: the claims -/

/-- C1: FIFO order of `push` / `pop`. For every list `hs` of distinct non-empty handles
whose next links are empty, pushing them in that order onto the empty queue succeeds, and
`hs.length` calls of `pop` then return exactly `hs`, in that order, leaving the queue
empty (`empty()` true, `head_` and `tail_` empty). -/
theorem push_then_pop_fifo_order (next : Nat → ptr_t) (hs : List Nat) (hd : hs.Nodup)
    (hn : ∀ h ∈ hs, next h = none) :
    ∃ s1 s2, pushAll (init next) (hs.map some) = .ok s1 ∧
      popN hs.length s1 = .ok (hs.map some, s2) ∧
      empty s2 = true ∧ s2.head_ = none ∧ s2.tail_ = none := by
  obtain ⟨s1, hp, hh⟩ := pushAll_holds hs (init_holds next) hd
    (fun a ha => ⟨by simp, hn a ha⟩)
  have hh1 : Holds s1 (hs ++ []) := by simpa using hh
  obtain ⟨s2, hq, hh2, _⟩ := popN_holds hs [] hh1
  exact ⟨s1, s2, hp, hq, (holds_empty_iff hh2).mpr rfl, (holds_head_nil hh2).1,
    (holds_head_nil hh2).2⟩

/-- Witness of C1: fibers 3, 1, 2 pushed and popped again. -/
theorem push_then_pop_fifo_order_witness :
    ∃ s1 s2, pushAll (init fun _ => none) [some 3, some 1, some 2] = .ok s1 ∧
      popN 3 s1 = .ok ([some 3, some 1, some 2], s2) ∧
      empty s2 = true ∧ s2.head_ = none ∧ s2.tail_ = none :=
  push_then_pop_fifo_order (fun _ => none) [3, 1, 2] (by decide) (fun _ _ => rfl)

/-- C5: postcondition of `pop`. On a well-formed queue with contents `h :: l`, `pop`
returns `h` and leaves a well-formed queue with contents `l`; `tail_` is empty
afterwards when `l` is empty, and the next link of the returned handle is empty in
every case. -/
theorem pop_postcondition (s : State) (h : Nat) (l : List Nat) (hw : WellFormed s)
    (hc : Contents s (h :: l)) :
    ∃ s1, pop s = .ok (some h, s1) ∧ WellFormed s1 ∧ Contents s1 l ∧
      (l = [] → s1.tail_ = none) ∧ s1.next h = none := by
  obtain ⟨s1, hp, hh, hn, _⟩ := pop_holds (holds_iff.mpr ⟨hw, hc⟩)
  refine ⟨s1, hp, holds_wellFormed hh, hh.1, ?_, hn⟩
  intro hl
  subst hl
  exact (holds_head_nil hh).2

theorem queue1_holds : Holds queue1 [4] :=
  ⟨⟨rfl, rfl⟩, by decide, rfl⟩

theorem queue6_holds : Holds queue6 [1, 2, 3, 4, 5, 6] :=
  ⟨⟨rfl, rfl, rfl, rfl, rfl, rfl, rfl⟩, by decide, rfl⟩

/-- Witness of C5: popping the only member, the case in which `pop` does not call
`next_reset`. -/
theorem pop_postcondition_witness :
    WellFormed queue1 ∧ Contents queue1 [4] ∧
      ∃ s1, pop queue1 = .ok (some 4, s1) ∧ WellFormed s1 ∧ Contents s1 [] ∧
        (([] : List Nat) = [] → s1.tail_ = none) ∧ s1.next 4 = none :=
  ⟨holds_wellFormed queue1_holds, queue1_holds.1,
    pop_postcondition queue1 4 [] (holds_wellFormed queue1_holds) queue1_holds.1⟩

/-- C3: structural invariant. The empty queue is well-formed, and well-formedness is
preserved by `push` of a non-empty handle that is not a member and has an empty next
link, by `pop` on a non-empty queue, and by `erase` of any non-empty handle on a
non-empty queue (each of these calls returns, `erase` with any fuel from some bound on). -/
theorem wellFormed_preserved :
    (∀ next : Nat → ptr_t, WellFormed (init next)) ∧
    (∀ (s : State) (a : Nat), WellFormed s → ¬ Member s a → s.next a = none →
      ∃ s1, push s (some a) = .ok s1 ∧ WellFormed s1) ∧
    (∀ s : State, WellFormed s → empty s = false →
      ∃ r s1, pop s = .ok (r, s1) ∧ WellFormed s1) ∧
    (∀ (s : State) (a : Nat), WellFormed s → empty s = false →
      ∃ n s1, (∀ fuel, n ≤ fuel → erase fuel s (some a) = .ok s1) ∧ WellFormed s1) := by
  refine ⟨fun next => holds_wellFormed (init_holds next), ?_, ?_, ?_⟩
  · intro s a hw hm hn
    obtain ⟨L, hL⟩ := wellFormed_holds hw
    have haL : a ∉ L := fun hmem => hm ((member_iff_mem hL.1 a).mpr hmem)
    obtain ⟨s1, hp, hh, _⟩ := push_holds hL haL hn
    exact ⟨s1, hp, holds_wellFormed hh⟩
  · intro s hw he
    obtain ⟨L, hL⟩ := wellFormed_holds hw
    cases L with
    | nil =>
      have := (holds_empty_iff hL).mpr rfl
      rw [he] at this
      exact absurd this (by simp)
    | cons a l =>
      obtain ⟨s1, hp, hh, _⟩ := pop_holds hL
      exact ⟨some a, s1, hp, holds_wellFormed hh⟩
  · intro s a hw he
    obtain ⟨L, hL⟩ := wellFormed_holds hw
    have hne : L ≠ [] := by
      intro e
      have := (holds_empty_iff hL).mpr e
      rw [he] at this
      exact absurd this (by simp)
    obtain ⟨s1, he1, hh⟩ := erase_holds a hL hne L.length le_rfl
    exact ⟨L.length, s1, fun fuel hf => erase_mono L.length fuel he1 hf, holds_wellFormed hh⟩

theorem queue1_not_member_7 : ¬ Member queue1 7 := by
  rw [member_iff_mem queue1_holds.1]
  decide

/-- Witness of C3: pushing fiber 7 behind the only member of `queue1`. -/
theorem wellFormed_preserved_witness :
    WellFormed queue1 ∧ ¬ Member queue1 7 ∧ queue1.next 7 = none ∧
      ∃ s1, push queue1 (some 7) = .ok s1 ∧ WellFormed s1 :=
  ⟨holds_wellFormed queue1_holds, queue1_not_member_7, rfl,
    wellFormed_preserved.2.1 queue1 7 (holds_wellFormed queue1_holds) queue1_not_member_7 rfl⟩

/-- C4: `move_to` partitions the queue. On a well-formed queue with contents `L`, for
every predicate `fn` and target `T`, `move_to` returns with the target holding `T`
followed by the members satisfying `fn` in their original order; the queue is
well-formed with contents the members not satisfying `fn` in their original order,
`head_` and `tail_` being the first and last of them (both empty if all were moved);
every moved handle has an empty next link; and when no member is selected queue, heap
and target are returned unchanged. -/
theorem move_to_partitions (s : State) (L : List Nat) (fn : Nat → Bool) (T : List ptr_t)
    (fuel : Nat) (hw : WellFormed s) (hc : Contents s L) (hf : L.length ≤ fuel) :
    ∃ s1, move_to fuel fn s T = .ok (s1, T ++ (L.filter fn).map some) ∧
      WellFormed s1 ∧ Contents s1 (L.filter fun a => !fn a) ∧
      s1.head_ = (L.filter fun a => !fn a).head? ∧
      s1.tail_ = (L.filter fun a => !fn a).getLast? ∧
      ((∀ a ∈ L, fn a = true) → s1.head_ = none ∧ s1.tail_ = none) ∧
      (∀ a ∈ L, fn a = true → s1.next a = none) ∧
      ((∀ a ∈ L, fn a = false) → move_to fuel fn s T = .ok (s, T)) := by
  have hL : Holds s L := holds_iff.mpr ⟨hw, hc⟩
  have hL0 : Holds s ([] ++ L) := hL
  obtain ⟨s1, hm, hh, hmv, _⟩ := move_toLoop_holds fn L [] s T s.head_ fuel hL0
    (fun hne => absurd rfl hne) hf
  have hh1 : Holds s1 (L.filter fun a => !fn a) := hh
  refine ⟨s1, ?_, holds_wellFormed hh1, hh1.1, chain_head? hh1.1, hh1.2.2, ?_, hmv, ?_⟩
  · rw [← chain_head? hc] at hm
    exact hm
  · intro hall
    have e : (L.filter fun a => !fn a) = [] := by
      rw [List.filter_eq_nil_iff]
      intro a ha
      simp [hall a ha]
    rw [e] at hh1
    exact holds_head_nil hh1
  · intro hnone
    exact move_toLoop_none L s.head_ s.head_ T fuel hc hnone hf

/-- Witness of C4: every third of the six members of `queue6` is moved. -/
theorem move_to_partitions_witness :
    WellFormed queue6 ∧ Contents queue6 [1, 2, 3, 4, 5, 6] ∧
      ∃ s1, move_to 6 everyThird queue6 [] = .ok (s1, [some 3, some 6]) ∧
        WellFormed s1 ∧ Contents s1 [1, 2, 4, 5] ∧ s1.head_ = some 1 ∧ s1.tail_ = some 5 ∧
        ((∀ a ∈ [1, 2, 3, 4, 5, 6], everyThird a = true) → s1.head_ = none ∧ s1.tail_ = none) ∧
        (∀ a ∈ [1, 2, 3, 4, 5, 6], everyThird a = true → s1.next a = none) ∧
        ((∀ a ∈ [1, 2, 3, 4, 5, 6], everyThird a = false) →
          move_to 6 everyThird queue6 [] = .ok (queue6, [])) :=
  ⟨holds_wellFormed queue6_holds, queue6_holds.1,
    move_to_partitions queue6 [1, 2, 3, 4, 5, 6] everyThird [] 6
      (holds_wellFormed queue6_holds) queue6_holds.1 (by decide)⟩

/-- C6: observers agree with the contents. For every queue reached from the empty queue
by valid `push` / `pop` / `erase` calls: `empty()` is true iff `head_` and `tail_` are
both empty iff `size()` is 0; `size()` returns one number `n` (with any fuel from `n`
on, and no other number with any fuel); after exactly `n` calls of `pop` `empty()` is
true and after fewer it is false. -/
theorem observers_agree (s : State) (hr : Reachable s) :
    (empty s = true ↔ (s.head_ = none ∧ s.tail_ = none)) ∧
    ∃ n, (∀ fuel, n ≤ fuel → size fuel s = .ok n) ∧
      (∀ fuel m, size fuel s = .ok m → m = n) ∧
      (empty s = true ↔ n = 0) ∧
      (∃ r s1, popN n s = .ok (r, s1) ∧ empty s1 = true) ∧
      (∀ k, k < n → ∃ r s1, popN k s = .ok (r, s1) ∧ empty s1 = false) := by
  obtain ⟨L, hL⟩ := reachable_holds hr
  refine ⟨?_, L.length, fun fuel hf => holds_size hL fuel hf, ?_, ?_, ?_, ?_⟩
  · constructor
    · intro he
      have e := (holds_empty_iff hL).mp he
      subst e
      exact holds_head_nil hL
    · intro hh
      simp [empty, hh.1]
  · intro fuel m hm
    obtain ⟨L1, hc1, hm1⟩ := sizeLoop_ok_chain fuel s.head_ 0 m hm
    rw [chain_unique hc1 hL.1] at hm1
    omega
  · rw [holds_empty_iff hL]
    exact List.length_eq_zero.symm
  · have hL1 : Holds s (L ++ []) := by simpa using hL
    obtain ⟨s1, hp, hh, _⟩ := popN_holds L [] hL1
    exact ⟨L.map some, s1, hp, (holds_empty_iff hh).mpr rfl⟩
  · intro k hk
    have hL1 : Holds s (L.take k ++ L.drop k) := by simpa using hL
    obtain ⟨s1, hp, hh, _⟩ := popN_holds (L.take k) (L.drop k) hL1
    have hlen : (L.take k).length = k := by
      rw [List.length_take]
      omega
    rw [hlen] at hp
    refine ⟨(L.take k).map some, s1, hp, ?_⟩
    cases hemp : empty s1 with
    | false => rfl
    | true =>
      have e := (holds_empty_iff hh).mp hemp
      have hl : (L.drop k).length = 0 := by rw [e]; rfl
      rw [List.length_drop] at hl
      omega

/-- Witness of C6: the queue reached by pushing fiber 4 onto the empty queue. -/
theorem observers_agree_witness :
    Reachable queue1 ∧
    (empty queue1 = true ↔ (queue1.head_ = none ∧ queue1.tail_ = none)) ∧
    ∃ n, (∀ fuel, n ≤ fuel → size fuel queue1 = .ok n) ∧
      (∀ fuel m, size fuel queue1 = .ok m → m = n) ∧
      (empty queue1 = true ↔ n = 0) ∧
      (∃ r s1, popN n queue1 = .ok (r, s1) ∧ empty s1 = true) ∧
      (∀ k, k < n → ∃ r s1, popN k queue1 = .ok (r, s1) ∧ empty s1 = false) :=
  have hr : Reachable queue1 :=
    Reachable.push 4 (Reachable.init fun _ => none)
      (by rw [member_iff_mem (init_holds fun _ => none).1]; simp) rfl rfl
  ⟨hr, observers_agree queue1 hr⟩

/-- C7: erase then find. On a well-formed queue with contents `L` and a member `x` (which
`find` does find beforehand), `erase( x)` returns and `find( x)` on the queue it leaves
returns the empty handle. -/
theorem erase_then_find (s : State) (L : List Nat) (x fuel1 fuel2 : Nat) (hw : WellFormed s)
    (hc : Contents s L) (hx : x ∈ L) (hf1 : L.length ≤ fuel1) (hf2 : L.length ≤ fuel2) :
    find fuel2 s (some x) = .ok (some x) ∧
    ∃ s1, erase fuel1 s (some x) = .ok s1 ∧ find fuel2 s1 (some x) = .ok none := by
  have hL : Holds s L := holds_iff.mpr ⟨hw, hc⟩
  refine ⟨findLoop_mem L s.head_ fuel2 hc hx hf2, ?_⟩
  obtain ⟨s1, he, hh, _⟩ := erase_mem_holds hL hx fuel1 hf1
  refine ⟨s1, he, ?_⟩
  have hnm : x ∉ L.erase x := fun hm => (List.Nodup.mem_erase_iff hL.2.1).mp hm |>.1 rfl
  have hlen : (L.erase x).length ≤ fuel2 :=
    le_trans (List.erase_sublist x L).length_le hf2
  exact findLoop_not_mem (L.erase x) s1.head_ fuel2 hh.1 hnm hlen

/-- Witness of C7: erasing the interior member 3 of `queue6`. -/
theorem erase_then_find_witness :
    WellFormed queue6 ∧ Contents queue6 [1, 2, 3, 4, 5, 6] ∧
    find 6 queue6 (some 3) = .ok (some 3) ∧
    ∃ s1, erase 6 queue6 (some 3) = .ok s1 ∧ find 6 s1 (some 3) = .ok none :=
  ⟨holds_wellFormed queue6_holds, queue6_holds.1,
    erase_then_find queue6 [1, 2, 3, 4, 5, 6] 3 6 6 (holds_wellFormed queue6_holds)
      queue6_holds.1 (by decide) (by decide) (by decide)⟩

/-- C8: `erase` of a member. On a well-formed queue with contents `L` and a member `x`,
`erase( x)` leaves a well-formed queue with contents `L` without `x`, the other members
in their original order. If `x` was the head the call is `pop()`; otherwise the next
link of the predecessor `p` of `x` becomes the former next link of `x`, and `p` becomes
`tail_` if `x` was the tail (`tail_` is kept if not). The next link of `x` is empty
afterwards and `size()` is one less than before. -/
theorem erase_member (s : State) (L : List Nat) (x fuel : Nat) (hw : WellFormed s)
    (hc : Contents s L) (hx : x ∈ L) (hf : L.length ≤ fuel) :
    ∃ s1, erase fuel s (some x) = .ok s1 ∧ WellFormed s1 ∧ Contents s1 (L.erase x) ∧
      L.erase x = L.filter (fun b => b != x) ∧
      (s.head_ = some x → erase fuel s (some x) = (pop s).map Prod.snd) ∧
      (s.head_ ≠ some x → ∃ p, p ∈ L ∧ s.next p = some x ∧ s1.next p = s.next x ∧
        s1.head_ = s.head_ ∧
        (s.tail_ = some x → s1.tail_ = some p) ∧ (s.tail_ ≠ some x → s1.tail_ = s.tail_)) ∧
      s1.next x = none ∧
      size fuel s = .ok L.length ∧ size fuel s1 = .ok (L.length - 1) := by
  have hL : Holds s L := holds_iff.mpr ⟨hw, hc⟩
  have hsz : ∀ s1, Holds s1 (L.erase x) → size fuel s1 = .ok (L.length - 1) := by
    intro s1 hh
    have := holds_size hh fuel (le_trans (List.erase_sublist x L).length_le hf)
    rw [List.length_erase_of_mem hx] at this
    exact this
  have hfil : L.erase x = L.filter (fun b => b != x) := List.Nodup.erase_eq_filter hL.2.1 x
  obtain ⟨pre, l2, hLe, hpre⟩ := List.eq_append_cons_of_mem hx
  rcases List.eq_nil_or_concat pre with hp | ⟨l1, p, hp⟩
  · subst hp
    have hLx : Holds s (x :: l2) := by simpa [hLe] using hL
    have hhd := holds_head_cons hLx
    obtain ⟨s1, he, hh, hn, _⟩ := erase_mem_holds hL hx fuel hf
    exact ⟨s1, he, holds_wellFormed hh, hh.1, hfil, fun _ => erase_head hLx fuel,
      fun hne => absurd hhd hne, hn, holds_size hL fuel hf, hsz s1 hh⟩
  · rw [List.concat_eq_append] at hp
    subst hp
    have e : l1 ++ [p] ++ x :: l2 = l1 ++ p :: x :: l2 := by simp
    have hLx : Holds s (l1 ++ p :: x :: l2) := by
      rw [← e, ← hLe]
      exact hL
    have hxp : x ≠ p := fun e1 => hpre (by simp [e1])
    have hhd : s.head_ ≠ some x := by
      intro e1
      cases l1 with
      | nil =>
        rw [holds_head_cons (l := x :: l2) (a := p) hLx] at e1
        exact hxp (Option.some.inj e1).symm
      | cons y l1 =>
        rw [holds_head_cons (l := l1 ++ p :: x :: l2) (a := y) hLx] at e1
        exact hpre (by simp [Option.some.inj e1])
    have hpx : s.next p = some x := (chain_append_right l1 s.head_ hLx.1).1
    obtain ⟨he, hh⟩ := erase_interior hLx fuel (by
      rw [hLe] at hf
      simp only [List.length_append, List.length_cons, List.length_singleton] at hf
      omega)
    have hh1 : Holds
        { next := setNext (setNext s.next p (s.next x)) x none, head_ := s.head_,
          tail_ := if s.tail_ = some x then some p else s.tail_ } (L.erase x) := by
      rw [hLe, List.erase_append_right _ hpre, List.erase_cons_head]
      simpa using hh
    refine ⟨_, he, holds_wellFormed hh1, hh1.1, hfil, fun h0 => absurd h0 hhd, ?_,
      setNext_same _ _ _, holds_size hL fuel hf, hsz _ hh1⟩
    intro _
    refine ⟨p, by simp [hLe], hpx, ?_, rfl, ?_, ?_⟩
    · show setNext (setNext s.next p (s.next x)) x none p = s.next x
      rw [setNext_other _ _ _ _ (fun e1 => hxp e1.symm), setNext_same]
    · intro ht
      show (if s.tail_ = some x then some p else s.tail_) = some p
      simp [ht]
    · intro ht
      show (if s.tail_ = some x then some p else s.tail_) = s.tail_
      simp [ht]

/-- Witness of C8: erasing the tail 6 of `queue6`, whose predecessor 5 becomes the tail. -/
theorem erase_member_witness :
    WellFormed queue6 ∧ Contents queue6 [1, 2, 3, 4, 5, 6] ∧
    ∃ s1, erase 6 queue6 (some 6) = .ok s1 ∧ WellFormed s1 ∧ Contents s1 [1, 2, 3, 4, 5] ∧
      [1, 2, 3, 4, 5] = [1, 2, 3, 4, 5] ∧
      (queue6.head_ = some 6 → erase 6 queue6 (some 6) = (pop queue6).map Prod.snd) ∧
      (queue6.head_ ≠ some 6 → ∃ p, p ∈ [1, 2, 3, 4, 5, 6] ∧ queue6.next p = some 6 ∧
        s1.next p = queue6.next 6 ∧ s1.head_ = queue6.head_ ∧
        (queue6.tail_ = some 6 → s1.tail_ = some p) ∧
        (queue6.tail_ ≠ some 6 → s1.tail_ = queue6.tail_)) ∧
      s1.next 6 = none ∧
      size 6 queue6 = .ok 6 ∧ size 6 s1 = .ok 5 :=
  ⟨holds_wellFormed queue6_holds, queue6_holds.1,
    erase_member queue6 [1, 2, 3, 4, 5, 6] 6 6 (holds_wellFormed queue6_holds)
      queue6_holds.1 (by decide) (by decide)⟩

/-- C9: `erase` of a non-member is a no-op. On a well-formed non-empty queue, for a
non-empty handle `x` that is not a member, `erase( x)` returns without error (with any
fuel from `size()` on) and returns the state it was given: `head_`, `tail_` and every
next link, that of `x` included, are unchanged. -/
theorem erase_non_member_noop (s : State) (x : Nat) (hw : WellFormed s)
    (he : empty s = false) (hx : ¬ Member s x) :
    ∃ n, size n s = .ok n ∧ ∀ fuel, n ≤ fuel → erase fuel s (some x) = .ok s := by
  obtain ⟨L, hL⟩ := wellFormed_holds hw
  have hne : L ≠ [] := by
    intro e
    have := (holds_empty_iff hL).mpr e
    rw [he] at this
    exact absurd this (by simp)
  have hxL : x ∉ L := fun hm => hx ((member_iff_mem hL.1 x).mpr hm)
  exact ⟨L.length, holds_size hL L.length le_rfl,
    fun fuel hf => erase_not_mem hL hne hxL fuel hf⟩

theorem queue6_not_member_9 : ¬ Member queue6 9 := by
  rw [member_iff_mem queue6_holds.1]
  decide

/-- Witness of C9: fiber 9 is not linked in `queue6`. -/
theorem erase_non_member_noop_witness :
    WellFormed queue6 ∧ empty queue6 = false ∧ ¬ Member queue6 9 ∧
    ∃ n, size n queue6 = .ok n ∧ ∀ fuel, n ≤ fuel → erase fuel queue6 (some 9) = .ok queue6 :=
  ⟨holds_wellFormed queue6_holds, rfl, queue6_not_member_9,
    erase_non_member_noop queue6 9 (holds_wellFormed queue6_holds) rfl queue6_not_member_9⟩

/-- The scan of `erase` fails in no other way than by running out of fuel. -/
theorem eraseLoop_error_fuel {item : ptr_t} {s : State} {e : Err} (k : Nat) (p : ptr_t)
    (h : eraseLoop item k s p = .error e) : e = .fuel := by
  induction k generalizing p with
  | zero =>
    cases p with
    | none => simp [eraseLoop] at h
    | some x =>
      simp only [eraseLoop, Except.error.injEq] at h
      exact h.symm
  | succ k ih =>
    cases p with
    | none => simp [eraseLoop] at h
    | some x =>
      simp only [eraseLoop] at h
      cases hn : s.next x with
      | none => simp [hn] at h
      | some n =>
        simp only [hn] at h
        by_cases hi : item = some n
        · simp [hi] at h
        · simp only [hi, if_false] at h
          exact ih (some n) h

/-- The two embeddings of `pop()` agree. -/
theorem pop_eq_pop_run (s : State) :
    pop s = (pop_run s).1.map fun x => (x, (pop_run s).2) := by
  unfold pop pop_run
  by_cases he : empty s = true
  · simp [he, Except.map]
  · cases hh : s.head_ with
    | none => simp [he, Except.map]
    | some h =>
      cases hn : s.next h with
      | none => simp [he, hn, Except.map]
      | some n => simp [he, hn, Except.map]

/-- The two embeddings of `erase( item)` agree. -/
theorem erase_eq_erase_run (fuel : Nat) (s : State) (item : ptr_t) :
    erase fuel s item = (erase_run fuel s item).1.map fun _ => (erase_run fuel s item).2 := by
  cases item with
  | none => simp [erase, erase_run, Except.map]
  | some a =>
    by_cases he : empty s = true
    · simp [erase, erase_run, he, Except.map]
    · by_cases hh : some a = s.head_
      · simp only [erase, erase_run, he, hh, if_true, if_false, pop_eq_pop_run s]
        cases (pop_run s).1 <;> rfl
      · simp only [erase, erase_run, he, hh, if_false]
        cases eraseLoop (some a) fuel s s.head_ <;> rfl

/-- C19, as stated, fails: `push` has no assertion on the links of the handle. Fiber 4
is the member of `queue1`, and `push` of it returns, linking fiber 4 to itself; fiber 9
has a non-empty next link in `heapLinked`, and `push` of it onto the empty queue
returns, making it head and tail with its link still set. -/
theorem push_linked_handle_returns :
    (Member queue1 4 ∧ ∃ s1, push queue1 (some 4) = .ok s1 ∧ s1.next 4 = some 4) ∧
    (heapLinked 9 = some 3 ∧ ∃ s1, push (init heapLinked) (some 9) = .ok s1 ∧
      s1.head_ = some 9 ∧ s1.tail_ = some 9 ∧ s1.next 9 = some 3) :=
  ⟨⟨⟨0, rfl⟩, _, rfl, rfl⟩, rfl, _, rfl, rfl, rfl, rfl⟩

/-- C19, amended: `push` makes no check of exclusive membership. `push` of the empty
handle fails with an assertion; `push` of a non-empty handle, linked or not, fails an
assertion exactly when `head_` is non-empty while `tail_` is empty (the dereference of
`tail_`); on every other queue, so on every well-formed one, it returns with the handle
linked: it is `tail_` afterwards, also `head_` if the queue was empty and else the next
link of the former tail, with `head_` kept. -/
theorem push_asserts_non_empty_only :
    (∀ s : State, push s none = .error .assertion) ∧
    (∀ (s : State) (a : Nat),
      push s (some a) = .error .assertion ↔ (s.head_ ≠ none ∧ s.tail_ = none)) ∧
    (∀ (s : State) (a : Nat), (s.head_ = none ∨ s.tail_ ≠ none) →
      ∃ s1, push s (some a) = .ok s1 ∧ s1.tail_ = some a ∧
        (s.head_ = none → s1.head_ = some a ∧ s1.next = s.next) ∧
        (s.head_ ≠ none → s1.head_ = s.head_ ∧
          ∀ t, s.tail_ = some t → s1.next = setNext s.next t (some a))) := by
  refine ⟨fun _ => rfl, ?_, ?_⟩
  · intro s a
    cases hh : s.head_ with
    | none => simp [push, empty, hh]
    | some h =>
      cases ht : s.tail_ with
      | none => simp [push, empty, hh, ht]
      | some t => simp [push, empty, hh, ht]
  · intro s a hpre
    cases hh : s.head_ with
    | none =>
      refine ⟨{ next := s.next, head_ := some a, tail_ := some a }, ?_, rfl,
        fun _ => ⟨rfl, rfl⟩, fun hne => absurd rfl hne⟩
      simp [push, empty, hh]
    | some h =>
      cases ht : s.tail_ with
      | none =>
        rcases hpre with hpre | hpre
        · rw [hh] at hpre
          cases hpre
        · exact absurd ht hpre
      | some t =>
        refine ⟨{ next := setNext s.next t (some a), head_ := s.head_, tail_ := some a }, ?_,
          rfl, ?_, ?_⟩
        · simp [push, empty, hh, ht, setNext_same]
        · intro e
          cases e
        · intro _
          refine ⟨hh, ?_⟩
          intro t1 ht1
          cases ht1
          rfl

theorem queue6_member_3 : Member queue6 3 := by
  rw [member_iff_mem queue6_holds.1]
  decide

/-- Witness of C19: fiber 3 is a member of `queue6` with its next link set, and `push` of
it returns, fiber 3 becoming `tail_` behind fiber 6. -/
theorem push_asserts_non_empty_only_witness :
    Member queue6 3 ∧ queue6.next 3 = some 4 ∧
    (queue6.head_ = none ∨ queue6.tail_ ≠ none) ∧
    ∃ s1, push queue6 (some 3) = .ok s1 ∧ s1.tail_ = some 3 ∧
      (queue6.head_ = none → s1.head_ = some 3 ∧ s1.next = queue6.next) ∧
      (queue6.head_ ≠ none → s1.head_ = queue6.head_ ∧
        ∀ t, queue6.tail_ = some t → s1.next = setNext queue6.next t (some 3)) :=
  ⟨queue6_member_3, rfl, Or.inr (by decide),
    push_asserts_non_empty_only.2.2 queue6 3 (Or.inr (by decide))⟩

end fifo

/-! ## The mutex: auxiliary lemmas -/

namespace timed_mutex

theorem lock_if_unlocked_ok {f : Nat} {m m1 : State} {b : Bool}
    (h : lock_if_unlocked_ f m = .ok (b, m1)) :
    (b = true ∧ m.state_ = .unlocked ∧ m.owner_ = none ∧
      m1 = { state_ := .locked, owner_ := some f, waiting_ := m.waiting_ }) ∨
    (b = false ∧ m.state_ = .locked ∧ m1 = m) := by
  unfold lock_if_unlocked_ at h
  cases hs : m.state_ with
  | locked =>
    simp [hs] at h
    exact Or.inr ⟨h.1, rfl, h.2.symm⟩
  | unlocked =>
    cases ho : m.owner_ with
    | some g => simp [hs, ho] at h
    | none =>
      simp [hs, ho] at h
      exact Or.inl ⟨h.1, rfl, rfl, h.2.symm⟩

theorem lock_pass_acquires {f : Nat} {m m1 : State} {r : Step}
    (h : lock_pass f m = .ok (r, m1)) : Acquires f m r m1 := by
  unfold lock_pass at h
  cases hl : lock_if_unlocked_ f m with
  | error e => simp [hl] at h
  | ok p =>
    obtain ⟨b, m2⟩ := p
    rcases lock_if_unlocked_ok hl with ⟨hb, hs, ho, hm⟩ | ⟨hb, hs, hm⟩
    · subst hb
      simp [hl] at h
      obtain ⟨hr, hm1⟩ := h
      subst hr hm1 hm
      exact Or.inl ⟨rfl, hs, ho, rfl, rfl⟩
    · subst hb
      simp only [hl] at h
      by_cases hw : f ∈ m2.waiting_
      · simp [hw] at h
      · simp [hw] at h
        obtain ⟨hr, hm1⟩ := h
        subst hr hm1 hm
        exact Or.inr ⟨by simp, rfl, rfl⟩

theorem try_lock_acquires {f : Nat} {m m1 : State} {b : Bool}
    (h : try_lock f m = .ok (b, m1)) : Acquires f m (.returned b) m1 := by
  unfold try_lock at h
  cases hl : lock_if_unlocked_ f m with
  | error e => simp [hl] at h
  | ok p =>
    obtain ⟨b2, m2⟩ := p
    rcases lock_if_unlocked_ok hl with ⟨hb, hs, ho, hm⟩ | ⟨hb, hs, hm⟩
    · subst hb
      simp [hl] at h
      obtain ⟨hr, hm1⟩ := h
      subst hr hm1 hm
      exact Or.inl ⟨rfl, hs, ho, rfl, rfl⟩
    · subst hb
      simp [hl] at h
      obtain ⟨hr, hm1⟩ := h
      subst hr hm1 hm
      exact Or.inr ⟨by simp, rfl, rfl⟩

theorem try_lock_until_pass_acquires {f now t : Nat} {m m1 : State} {r : Step}
    (h : try_lock_until_pass f now t m = .ok (r, m1)) : Acquires f m r m1 := by
  unfold try_lock_until_pass at h
  by_cases hn : now > t
  · simp [hn] at h
    obtain ⟨hr, hm1⟩ := h
    subst hr hm1
    exact Or.inr ⟨by simp, rfl, rfl⟩
  · simp only [hn, if_false] at h
    cases hl : lock_if_unlocked_ f m with
    | error e => simp [hl] at h
    | ok p =>
      obtain ⟨b, m2⟩ := p
      rcases lock_if_unlocked_ok hl with ⟨hb, hs, ho, hm⟩ | ⟨hb, hs, hm⟩
      · subst hb
        simp [hl] at h
        obtain ⟨hr, hm1⟩ := h
        subst hr hm1 hm
        exact Or.inl ⟨rfl, hs, ho, rfl, rfl⟩
      · subst hb
        simp only [hl] at h
        by_cases hw : f ∈ m2.waiting_
        · simp [hw] at h
        · simp [hw] at h
          obtain ⟨hr, hm1⟩ := h
          subst hr hm1 hm
          exact Or.inr ⟨by simp, rfl, rfl⟩

theorem unlock_ok {f : Nat} {m m1 : State} {w : Option Nat} (h : unlock f m = .ok (w, m1)) :
    m.state_ = .locked ∧ m.owner_ = some f ∧ m1.state_ = .unlocked ∧ m1.owner_ = none ∧
      w = m.waiting_.head? ∧ m1.waiting_ = m.waiting_.tail := by
  unfold unlock at h
  cases hs : m.state_ with
  | unlocked => simp [hs] at h
  | locked =>
    by_cases ho : m.owner_ = some f
    · cases hw : m.waiting_ with
      | nil =>
        simp [hs, ho, hw] at h
        obtain ⟨h1, h2⟩ := h
        subst h1 h2
        exact ⟨rfl, ho, rfl, rfl, rfl, rfl⟩
      | cons g rest =>
        simp [hs, ho, hw] at h
        obtain ⟨h1, h2⟩ := h
        subst h1 h2
        exact ⟨rfl, ho, rfl, rfl, rfl, rfl⟩
    · simp [hs, ho] at h

theorem inv_init : Inv System.init :=
  ⟨Or.inl ⟨rfl, rfl, rfl⟩, fun _ _ h => by simp [System.init] at h, rfl⟩

theorem inv_acquire {s : System} {f : Nat} {r : Step} {m1 : State} (hi : Inv s)
    (ha : Acquires f s.m r m1) :
    Inv { s with m := m1, holders := acquire f r s.holders } := by
  obtain ⟨hown, hload, hcnt⟩ := hi
  rcases ha with ⟨hr, hs, _, hs1, ho1⟩ | ⟨hr, hs1, ho1⟩
  · have hnil : s.holders = [] := by
      rcases hown with ⟨h, _⟩ | ⟨g, _, hl, _⟩
      · exact h
      · rw [hs] at hl
        exact absurd hl (by simp)
    refine ⟨Or.inr ⟨f, by simp [acquire, hr, hnil], hs1, ho1⟩, ?_, hcnt⟩
    intro g v hg
    have := (hload g v hg).1
    rw [hnil] at this
    simp at this
  · refine ⟨?_, ?_, hcnt⟩
    · simpa [acquire, hr, hs1, ho1] using hown
    · simpa [acquire, hr] using hload

theorem inv_next {s s1 : System} (hi : Inv s) (hn : Next s s1) : Inv s1 := by
  cases hn with
  | lock f r m1 h => exact inv_acquire hi (lock_pass_acquires h)
  | try_lock f b m1 h => exact inv_acquire hi (try_lock_acquires h)
  | try_lock_until f now t r m1 h => exact inv_acquire hi (try_lock_until_pass_acquires h)
  | timeout f =>
    obtain ⟨hown, hload, hcnt⟩ := hi
    refine ⟨?_, hload, hcnt⟩
    unfold try_lock_until_timeout
    by_cases hw : f ∈ s.m.waiting_
    · simpa [hw] using hown
    · simpa [hw] using hown
  | unlock f w m1 h hl =>
    obtain ⟨hown, hload, hcnt⟩ := hi
    obtain ⟨hs, ho, hs1, ho1, _, _⟩ := unlock_ok h
    have hh : s.holders = [f] := by
      rcases hown with ⟨_, hu, _⟩ | ⟨g, hg, _, hgo⟩
      · rw [hs] at hu
        exact absurd hu (by simp)
      · rw [ho] at hgo
        rw [hg, Option.some.inj hgo]
    refine ⟨Or.inl ⟨by simp [hh], hs1, ho1⟩, ?_, hcnt⟩
    intro g v hg
    have hgf := (hload g v hg).1
    rw [hh] at hgf
    have e : g = f := by simpa using hgf
    rw [e, hl] at hg
    exact absurd hg (by simp)
  | load f hf hl =>
    obtain ⟨hown, hload, hcnt⟩ := hi
    refine ⟨hown, ?_, hcnt⟩
    intro g v hg
    by_cases e : g = f
    · subst e
      simp at hg
      exact ⟨hf, hg.symm⟩
    · simp [e] at hg
      exact hload g v hg
  | store f v hl =>
    obtain ⟨hown, hload, hcnt⟩ := hi
    obtain ⟨hf, hv⟩ := hload f v hl
    refine ⟨hown, ?_, ?_⟩
    · intro g w hg
      by_cases e : g = f
      · subst e
        simp at hg
      · simp [e] at hg
        have hgh := (hload g w hg).1
        rcases hown with ⟨hnil, _⟩ | ⟨k, hk, _⟩
        · rw [hnil] at hf
          simp at hf
        · rw [hk] at hf hgh
          have e1 : f = k := by simpa using hf
          have e2 : g = k := by simpa using hgh
          exact absurd (e2.trans e1.symm) e
    · show v + 1 = s.increments + 1
      rw [hv, hcnt]

theorem reachable_inv {s : System} (hr : Reachable s) : Inv s := by
  induction hr with
  | init => exact inv_init
  | step _ hn ih => exact inv_next ih hn

/-! ## The mutex: the claims -/

/-- C2: mutual exclusion. In every state reached from a freshly constructed mutex by any
interleaving of atomic `lock`, `try_lock`, `try_lock_until` and `unlock` steps of any
number of fibers (`unlock` passing its assertions, so called by the owner), at most one
fiber has acquired the mutex and not yet released it, that fiber is `owner_` and the
mutex is locked; and the counter incremented inside the critical sections equals the
number of increments made. -/
theorem mutual_exclusion (s : System) (hr : Reachable s) :
    s.holders.length ≤ 1 ∧
    (∀ f ∈ s.holders, s.m.owner_ = some f ∧ s.m.state_ = .locked) ∧
    s.counter = s.increments := by
  obtain ⟨hown, _, hcnt⟩ := reachable_inv hr
  rcases hown with ⟨hnil, _⟩ | ⟨g, hg, hs, ho⟩
  · exact ⟨by simp [hnil], by simp [hnil], hcnt⟩
  · refine ⟨by simp [hg], ?_, hcnt⟩
    intro f hf
    rw [hg] at hf
    have e : f = g := by simpa using hf
    subst e
    exact ⟨ho, hs⟩

theorem afterIncrement_reachable : Reachable afterIncrement :=
  Reachable.step
    (Reachable.step
      (Reachable.step Reachable.init
        (Next.lock System.init 1 (.returned true)
          { state_ := .locked, owner_ := some 1, waiting_ := [] } rfl))
      (Next.load _ 1 (List.mem_singleton.mpr rfl) rfl))
    (Next.store _ 1 0 rfl)

/-- Witness of C2: fiber 1 inside its critical section, one increment made. -/
theorem mutual_exclusion_witness :
    Reachable afterIncrement ∧
    afterIncrement.holders.length ≤ 1 ∧
    (∀ f ∈ afterIncrement.holders,
      afterIncrement.m.owner_ = some f ∧ afterIncrement.m.state_ = .locked) ∧
    afterIncrement.counter = afterIncrement.increments :=
  ⟨afterIncrement_reachable, mutual_exclusion afterIncrement afterIncrement_reachable⟩

/-- C14: `try_lock_until` with an expired deadline. For every mutex state and calling
fiber, when the deadline is strictly earlier than the clock read by the first pass,
that pass returns `false` (it does not suspend the caller) and the mutex is returned
as it was: `state_`, `owner_` and `waiting_` unchanged, the caller not enqueued. -/
theorem try_lock_until_expired (m : State) (self now timeout_time : Nat)
    (h : timeout_time < now) :
    try_lock_until_pass self now timeout_time m = .ok (.returned false, m) := by
  simp [try_lock_until_pass, h]

/-- Witness of C14: deadline 3 at time 7 on a mutex locked by fiber 1. -/
theorem try_lock_until_expired_witness :
    3 < 7 ∧ try_lock_until_pass 2 7 3 lockedWaited = .ok (.returned false, lockedWaited) :=
  ⟨by decide, try_lock_until_expired lockedWaited 2 7 3 (by decide)⟩

/-- C15: postcondition of `unlock()`. For every state with `state_` Locked and `owner_`
the caller, `unlock()` returns, leaving `state_` Unlocked and `owner_` empty; with
`waiting_ = w :: rest` the list becomes `rest` and `set_ready()` is called on exactly
`w`; with `waiting_` empty nobody is marked ready; the woken fiber is not made owner. -/
theorem unlock_postcondition (m : State) (self : Nat) (hs : m.state_ = .locked)
    (ho : m.owner_ = some self) :
    ∃ w m1, unlock self m = .ok (w, m1) ∧ m1.state_ = .unlocked ∧ m1.owner_ = none ∧
      (∀ x rest, m.waiting_ = x :: rest → w = some x ∧ m1.waiting_ = rest) ∧
      (m.waiting_ = [] → w = none ∧ m1.waiting_ = []) ∧
      (∀ r : Run, (r.afterUnlock self w m1).marked = r.marked ++ w.toList ∧
        (r.afterUnlock self w m1).m.owner_ = none) := by
  cases hw : m.waiting_ with
  | nil =>
    refine ⟨none, { state_ := .unlocked, owner_ := none, waiting_ := [] }, ?_, rfl, rfl,
      ?_, fun _ => ⟨rfl, rfl⟩, fun _ => ⟨rfl, rfl⟩⟩
    · simp [unlock, hs, ho, hw]
    · intro x rest h
      cases h
  | cons g rest =>
    refine ⟨some g, { state_ := .unlocked, owner_ := none, waiting_ := rest }, ?_, rfl, rfl,
      ?_, ?_, fun _ => ⟨rfl, rfl⟩⟩
    · simp [unlock, hs, ho, hw]
    · intro x rest1 h
      cases h
      exact ⟨rfl, rfl⟩
    · intro h
      cases h

/-- Witness of C15: fiber 1 releases the mutex on which fibers 5 and 6 wait. -/
theorem unlock_postcondition_witness :
    lockedWaited.state_ = .locked ∧ lockedWaited.owner_ = some 1 ∧
    ∃ w m1, unlock 1 lockedWaited = .ok (w, m1) ∧ m1.state_ = .unlocked ∧ m1.owner_ = none ∧
      (∀ x rest, lockedWaited.waiting_ = x :: rest → w = some x ∧ m1.waiting_ = rest) ∧
      (lockedWaited.waiting_ = [] → w = none ∧ m1.waiting_ = []) ∧
      (∀ r : Run, (r.afterUnlock 1 w m1).marked = r.marked ++ w.toList ∧
        (r.afterUnlock 1 w m1).m.owner_ = none) :=
  ⟨rfl, rfl, unlock_postcondition lockedWaited 1 rfl rfl⟩

/-- C13: an expired timed wait leaves no trace. For every run in which the caller `f`
is at most once in `waiting_` (once, or not at all when a racing `unlock()` has popped
it), the timeout branch of `try_lock_until` returns `false`, leaves `waiting_` without
its entry of `f`, so that `f` is absent and a find for `f` finds nothing, leaves
`state_` and `owner_` as they were, and marks no fiber ready: the log of `set_ready()`
calls is unchanged and no fiber becomes ready. -/
theorem expired_wait_leaves_no_trace (r : Run) (f : Nat) (h : r.m.waiting_.count f ≤ 1) :
    (try_lock_until_timeout f r.m).1 = false ∧
    (r.afterTimeout f).m.waiting_ = r.m.waiting_.erase f ∧
    f ∉ (r.afterTimeout f).m.waiting_ ∧
    (r.afterTimeout f).m.waiting_.find? (fun g => g == f) = none ∧
    (r.afterTimeout f).m.state_ = r.m.state_ ∧
    (r.afterTimeout f).m.owner_ = r.m.owner_ ∧
    (r.afterTimeout f).marked = r.marked ∧
    (∀ g, ((r.afterTimeout f).phase g = .readyL → r.phase g = .readyL) ∧
      ((r.afterTimeout f).phase g = .readyT → r.phase g = .readyT)) := by
  have hw : (r.afterTimeout f).m.waiting_ = r.m.waiting_.erase f := by
    by_cases hm : f ∈ r.m.waiting_
    · simp [Run.afterTimeout, try_lock_until_timeout, hm]
    · simp [Run.afterTimeout, try_lock_until_timeout, hm, List.erase_of_not_mem hm]
  have hnot : f ∉ r.m.waiting_.erase f := by
    rw [← List.count_eq_zero, List.count_erase_self]
    omega
  refine ⟨?_, hw, hw ▸ hnot, ?_, ?_, ?_, rfl, ?_⟩
  · unfold try_lock_until_timeout
    split <;> rfl
  · rw [hw, List.find?_eq_none]
    intro x hx hxf
    have e : x = f := by simpa using hxf
    exact hnot (e ▸ hx)
  · unfold Run.afterTimeout try_lock_until_timeout
    split <;> rfl
  · unfold Run.afterTimeout try_lock_until_timeout
    split <;> rfl
  · intro g
    by_cases e : g = f
    · simp [Run.afterTimeout, setPhase, e]
    · simp [Run.afterTimeout, setPhase, e]

/-- Witness of C13: the timed wait of fiber 2 expires while it is still in `waiting_`. -/
theorem expired_wait_leaves_no_trace_witness :
    expiredRun.m.waiting_.count 2 ≤ 1 ∧
    (try_lock_until_timeout 2 expiredRun.m).1 = false ∧
    (expiredRun.afterTimeout 2).m.waiting_ = expiredRun.m.waiting_.erase 2 ∧
    2 ∉ (expiredRun.afterTimeout 2).m.waiting_ ∧
    (expiredRun.afterTimeout 2).m.waiting_.find? (fun g => g == 2) = none ∧
    (expiredRun.afterTimeout 2).m.state_ = expiredRun.m.state_ ∧
    (expiredRun.afterTimeout 2).m.owner_ = expiredRun.m.owner_ ∧
    (expiredRun.afterTimeout 2).marked = expiredRun.marked ∧
    (∀ g, ((expiredRun.afterTimeout 2).phase g = .readyL → expiredRun.phase g = .readyL) ∧
      ((expiredRun.afterTimeout 2).phase g = .readyT → expiredRun.phase g = .readyT)) :=
  ⟨by decide, expired_wait_leaves_no_trace expiredRun 2 (by decide)⟩

theorem lock_pass_locked {m : State} {f : Nat} (hs : m.state_ = .locked)
    (hf : f ∉ m.waiting_) :
    lock_pass f m = .ok (.suspended,
      { state_ := m.state_, owner_ := m.owner_, waiting_ := m.waiting_ ++ [f] }) := by
  simp [lock_pass, lock_if_unlocked_, hs, hf]

theorem lock_pass_unlocked {m : State} (f : Nat) (hs : m.state_ = .unlocked)
    (ho : m.owner_ = none) :
    lock_pass f m = .ok (.returned true,
      { state_ := .locked, owner_ := some f, waiting_ := m.waiting_ }) := by
  simp [lock_pass, lock_if_unlocked_, hs, ho]

theorem lockAll_locked (Fs : List Nat) :
    ∀ (W : List Nat) (m : State), m.state_ = .locked → (W ++ Fs).Nodup → m.waiting_ = W →
      ∃ m1, lockAll Fs m = .ok (List.replicate Fs.length .suspended, m1) ∧
        m1.waiting_ = W ++ Fs ∧ m1.state_ = m.state_ ∧ m1.owner_ = m.owner_ := by
  induction Fs with
  | nil =>
    intro W m _ _ hw
    exact ⟨m, rfl, by simpa using hw, rfl, rfl⟩
  | cons f Fs ih =>
    intro W m hs hd hw
    have hfW : f ∉ m.waiting_ := by
      rw [hw]
      intro hm
      exact (List.nodup_append.mp hd).2.2 hm (List.mem_cons_self f Fs)
    have hd1 : ((W ++ [f]) ++ Fs).Nodup := by simpa using hd
    obtain ⟨m1, hl, hw1, hs1, ho1⟩ := ih (W ++ [f])
      { state_ := m.state_, owner_ := m.owner_, waiting_ := m.waiting_ ++ [f] } hs hd1
      (by simp [hw])
    refine ⟨m1, ?_, by simpa using hw1, hs1, ho1⟩
    simp only [lockAll, lock_pass_locked hs hfW, hl, Except.map, List.length_cons,
      List.replicate_succ]

theorem releases_wake_in_order (os : List Nat) :
    ∀ (Fs : List Nat) (m : State), os.length = Fs.length → m.state_ = .locked →
      (∀ g, os.head? = some g → m.owner_ = some g) → m.waiting_ = Fs →
      ∃ m2, releases os m = .ok (Fs.map some, m2) ∧ m2.waiting_ = [] := by
  induction os with
  | nil =>
    intro Fs m hlen _ _ hw
    have e : Fs = [] := List.length_eq_zero.mp hlen.symm
    subst e
    exact ⟨m, rfl, hw⟩
  | cons o os ih =>
    intro Fs m hlen hs ho hw
    cases Fs with
    | nil => simp at hlen
    | cons F Fs =>
      have hown : m.owner_ = some o := ho o rfl
      have hu : unlock o m = .ok (some F,
          { state_ := .unlocked, owner_ := none, waiting_ := Fs }) := by
        simp [unlock, hs, hown, hw]
      cases os with
      | nil =>
        have e : Fs = [] := by
          apply List.length_eq_zero.mp
          simpa using hlen.symm
        subst e
        exact ⟨{ state_ := .unlocked, owner_ := none, waiting_ := [] },
          by simp [releases, hu], rfl⟩
      | cons g os =>
        have hl : lock_pass g { state_ := .unlocked, owner_ := none, waiting_ := Fs } =
            .ok (.returned true, { state_ := .locked, owner_ := some g, waiting_ := Fs }) :=
          lock_pass_unlocked g rfl rfl
        obtain ⟨m2, hr, hw2⟩ := ih Fs { state_ := .locked, owner_ := some g, waiting_ := Fs }
          (by simpa using hlen) rfl (by
            intro g1 hg1
            have e : g = g1 := by simpa using hg1
            rw [e]) rfl
        refine ⟨m2, ?_, hw2⟩
        rw [releases]
        simp only [hu, hl, hr, Except.map, List.map_cons]

/-- C11: FIFO fairness. On a mutex that is Locked with `waiting_` empty, when distinct
fibers `Fs` call `lock()` in that order every call is suspended and `waiting_` becomes
`Fs`, `state_` and `owner_` unchanged; thereafter `Fs.length` releases, the first by
the owner and each following one by the fiber that acquired the mutex in between (by a
pass of `lock()`, which does not enqueue it), call `set_ready()` on exactly the fibers
of `Fs`, in enqueue order, and leave `waiting_` empty. -/
theorem fifo_fairness (m : State) (Fs os : List Nat) (hs : m.state_ = .locked)
    (hw : m.waiting_ = []) (hd : Fs.Nodup) (hlen : os.length = Fs.length)
    (ho : ∀ g, os.head? = some g → m.owner_ = some g) :
    ∃ m1, lockAll Fs m = .ok (List.replicate Fs.length .suspended, m1) ∧
      m1.waiting_ = Fs ∧ m1.state_ = m.state_ ∧ m1.owner_ = m.owner_ ∧
      ∃ m2, releases os m1 = .ok (Fs.map some, m2) ∧ m2.waiting_ = [] := by
  obtain ⟨m1, hl, hw1, hs1, ho1⟩ := lockAll_locked Fs [] m hs (by simpa using hd) hw
  have hw1a : m1.waiting_ = Fs := by simpa using hw1
  obtain ⟨m2, hr, hw2⟩ := releases_wake_in_order os Fs m1 hlen (hs1.trans hs)
    (fun g hg => ho1.trans (ho g hg)) hw1a
  exact ⟨m1, hl, hw1a, hs1, ho1, m2, hr, hw2⟩

/-- Witness of C11: fibers 5, 6, 7 block on the mutex held by fiber 1; fiber 1 releases,
then 5 and 6 each acquire and release; 5, 6, 7 are woken in that order. -/
theorem fifo_fairness_witness :
    ∃ m1, lockAll [5, 6, 7] { state_ := .locked, owner_ := some 1, waiting_ := [] } =
        .ok ([.suspended, .suspended, .suspended], m1) ∧
      m1.waiting_ = [5, 6, 7] ∧ m1.state_ = .locked ∧ m1.owner_ = some 1 ∧
      ∃ m2, releases [1, 5, 6] m1 = .ok ([some 5, some 6, some 7], m2) ∧ m2.waiting_ = [] :=
  fifo_fairness { state_ := .locked, owner_ := some 1, waiting_ := [] } [5, 6, 7] [1, 5, 6]
    rfl rfl (by decide) rfl (by
      intro g hg
      have e : 1 = g := by simpa using hg
      rw [← e])

theorem acquires_owner {f : Nat} {m m1 : State} {r : Step} (ha : Acquires f m r m1)
    (h : (∃ g, m.owner_ = some g) ↔ m.state_ = .locked) :
    (∃ g, m1.owner_ = some g) ↔ m1.state_ = .locked := by
  rcases ha with ⟨_, _, _, hs1, ho1⟩ | ⟨_, hs1, ho1⟩
  · exact ⟨fun _ => hs1, fun _ => ⟨f, ho1⟩⟩
  · rw [hs1, ho1]
    exact h

theorem timeout_keeps (f : Nat) (m : State) :
    (try_lock_until_timeout f m).2.state_ = m.state_ ∧
    (try_lock_until_timeout f m).2.owner_ = m.owner_ := by
  unfold try_lock_until_timeout
  split <;> exact ⟨rfl, rfl⟩

theorem constructed_owner {m : State} (h : Constructed m) :
    (∃ g, m.owner_ = some g) ↔ m.state_ = .locked := by
  induction h with
  | init => simp [init]
  | step _ hop ih =>
    cases hop with
    | lock f r m1 h => exact acquires_owner (lock_pass_acquires h) ih
    | try_lock f b m1 h => exact acquires_owner (try_lock_acquires h) ih
    | try_lock_until f now t r m1 h => exact acquires_owner (try_lock_until_pass_acquires h) ih
    | timeout f =>
      rw [(timeout_keeps f _).1, (timeout_keeps f _).2]
      exact ih
    | unlock f w m1 h =>
      obtain ⟨_, _, hs1, ho1, _, _⟩ := unlock_ok h
      simp [hs1, ho1]

/-- C12: owner/state invariant. In every mutex state reached from construction by
`lock`, `try_lock`, `try_lock_until` and `unlock` calls (a failed assertion ends the
run), `owner_` is a non-empty id iff `state_` is Locked; hence `lock_if_unlocked_`
returns for every caller, its assertion `! owner_` not failing; and the constructed
mutex is Unlocked with empty owner and empty waiting list. -/
theorem owner_state_invariant (m : State) (h : Constructed m) :
    ((∃ g, m.owner_ = some g) ↔ m.state_ = .locked) ∧
    (∀ f, ∃ b m1, lock_if_unlocked_ f m = .ok (b, m1)) ∧
    (init.state_ = .unlocked ∧ init.owner_ = none ∧ init.waiting_ = []) := by
  have hinv := constructed_owner h
  refine ⟨hinv, ?_, rfl, rfl, rfl⟩
  intro f
  cases hs : m.state_ with
  | locked => exact ⟨false, m, by simp [lock_if_unlocked_, hs]⟩
  | unlocked =>
    have ho : m.owner_ = none := by
      cases hown : m.owner_ with
      | none => rfl
      | some g =>
        have := hinv.mp ⟨g, hown⟩
        rw [hs] at this
        cases this
    exact ⟨true, { state_ := .locked, owner_ := some f, waiting_ := m.waiting_ },
      by simp [lock_if_unlocked_, hs, ho]⟩

/-- Witness of C12: the mutex after `lock()` by fiber 1 and a suspended `lock()` of
fibers 5 and 6. -/
theorem owner_state_invariant_witness :
    Constructed lockedWaited ∧
    ((∃ g, lockedWaited.owner_ = some g) ↔ lockedWaited.state_ = .locked) ∧
    (∀ f, ∃ b m1, lock_if_unlocked_ f lockedWaited = .ok (b, m1)) ∧
    (init.state_ = .unlocked ∧ init.owner_ = none ∧ init.waiting_ = []) :=
  have hc : Constructed lockedWaited :=
    Constructed.step
      (Constructed.step
        (Constructed.step Constructed.init
          (Op.lock init 1 (.returned true)
            { state_ := .locked, owner_ := some 1, waiting_ := [] } rfl))
        (Op.lock _ 5 .suspended { state_ := .locked, owner_ := some 1, waiting_ := [5] } rfl))
      (Op.lock _ 6 .suspended lockedWaited rfl)
  ⟨hc, owner_state_invariant lockedWaited hc⟩

/-- C20: a wake-up is lost when a timeout races `unlock()`. There is a run reaching a
state with `state_` Unlocked, `waiting_` not empty and no fiber ready to retry: fiber 1
holds the mutex, fiber 2 is suspended in `try_lock_until` and fiber 3 in `lock()`, so
`waiting_` is 2, 3; the timed wait of fiber 2 expires; `unlock()` by fiber 1 pops
fiber 2 and calls `set_ready()` on it; fiber 2 runs the timeout branch, finds itself
absent and returns `false` without waking anyone. Then the mutex is Unlocked and free,
fiber 3 is still suspended in `waiting_` and was never marked ready, and no fiber is
ready, holding the mutex or on its way out of a wait. -/
theorem lost_wakeup :
    ∃ r : Run, RunReachable r ∧ r.m.state_ = .unlocked ∧ r.m.owner_ = none ∧
      r.m.waiting_ = [3] ∧ r.phase 3 = .waitL ∧ r.marked = [2] ∧ 3 ∉ r.marked ∧
      (∀ f, r.phase f = .idle ∨ (f = 3 ∧ r.phase f = .waitL)) := by
  have h1 : RunReachable _ := RunReachable.step RunReachable.init
    (RunNext.lock Run.init 1 (.returned true)
      { state_ := .locked, owner_ := some 1, waiting_ := [] } (Or.inl rfl) rfl)
  have h2 : RunReachable _ := RunReachable.step h1
    (RunNext.try_lock_until _ 2 0 5 .suspended
      { state_ := .locked, owner_ := some 1, waiting_ := [2] } (Or.inl rfl) rfl)
  have h3 : RunReachable _ := RunReachable.step h2
    (RunNext.lock _ 3 .suspended
      { state_ := .locked, owner_ := some 1, waiting_ := [2, 3] } (Or.inl rfl) rfl)
  have h4 : RunReachable _ := RunReachable.step h3 (RunNext.expire _ 2 rfl)
  have h5 : RunReachable _ := RunReachable.step h4
    (RunNext.unlock _ 1 (some 2)
      { state_ := .unlocked, owner_ := none, waiting_ := [3] } rfl rfl)
  have h6 : RunReachable _ := RunReachable.step h5 (RunNext.timeout _ 2 rfl)
  refine ⟨_, h6, rfl, rfl, rfl, rfl, rfl, by decide, ?_⟩
  intro f
  by_cases e3 : f = 3
  · subst e3
    exact Or.inr ⟨rfl, rfl⟩
  · by_cases e2 : f = 2
    · subst e2
      exact Or.inl rfl
    · by_cases e1 : f = 1
      · subst e1
        exact Or.inl rfl
      · left
        simp [Run.afterTimeout, Run.afterUnlock, setPhase, wake, afterPass, Run.init,
          e1, e2, e3]

/-- The two embeddings of `unlock()` agree. -/
theorem unlock_eq_unlock_run (self : Nat) (m : State) :
    unlock self m = (unlock_run self m).1.map fun w => (w, (unlock_run self m).2) := by
  unfold unlock unlock_run
  by_cases hs : m.state_ = .locked
  · by_cases ho : m.owner_ = some self
    · cases hw : m.waiting_ <;> simp [hs, ho, Except.map]
    · simp [hs, ho, Except.map]
  · simp [hs, Except.map]

/-- C17: precondition violations are reported by assertion before any state changes.
`pop()` on an empty queue, `erase()` on an empty queue, `unlock()` when `state_` is not
Locked and `unlock()` by a fiber that is not `owner_` each end in a failed assertion
with the queue, resp. the mutex, as it was. Conversely `pop()` on a non-empty queue
returns; `erase()` of a non-empty handle on a non-empty queue fails no assertion (it
returns, or the scan runs out of fuel) and on a well-formed queue it returns with any
fuel from some bound on; `unlock()` by the owner of a Locked mutex returns. -/
theorem precondition_violations :
    (∀ s : fifo.State, fifo.empty s = true → fifo.pop_run s = (.error .assertion, s)) ∧
    (∀ (s : fifo.State) (item : fifo.ptr_t) (fuel : Nat), fifo.empty s = true →
      fifo.erase_run fuel s item = (.error .assertion, s)) ∧
    (∀ (m : State) (self : Nat), m.state_ ≠ .locked →
      unlock_run self m = (.error .assertion, m)) ∧
    (∀ (m : State) (self : Nat), m.owner_ ≠ some self →
      unlock_run self m = (.error .assertion, m)) ∧
    (∀ s : fifo.State, fifo.empty s = false →
      ∃ h s1, fifo.pop_run s = (.ok (some h), s1) ∧ s.head_ = some h) ∧
    (∀ (s : fifo.State) (a fuel : Nat), fifo.empty s = false →
      (∃ s1, fifo.erase_run fuel s (some a) = (.ok (), s1)) ∨
      fifo.erase_run fuel s (some a) = (.error .fuel, s)) ∧
    (∀ (s : fifo.State) (a : Nat), fifo.WellFormed s → fifo.empty s = false →
      ∃ n s1, ∀ fuel, n ≤ fuel → fifo.erase_run fuel s (some a) = (.ok (), s1)) ∧
    (∀ (m : State) (self : Nat), m.state_ = .locked → m.owner_ = some self →
      ∃ w m1, unlock_run self m = (.ok w, m1)) := by
  refine ⟨?_, ?_, ?_, ?_, ?_, ?_, ?_, ?_⟩
  · intro s he
    simp [fifo.pop_run, he]
  · intro s item fuel he
    cases item <;> simp [fifo.erase_run, he]
  · intro m self hs
    simp [unlock_run, hs]
  · intro m self ho
    unfold unlock_run
    by_cases hs : m.state_ = .locked
    · simp [hs, ho]
    · simp [hs]
  · intro s he
    cases hh : s.head_ with
    | none => simp [fifo.empty, hh] at he
    | some h =>
      cases hn : s.next h with
      | none =>
        exact ⟨h, { next := s.next, head_ := none, tail_ := none },
          by simp [fifo.pop_run, he, hh, hn], rfl⟩
      | some n =>
        exact ⟨h, { next := fifo.setNext s.next h none, head_ := some n, tail_ := s.tail_ },
          by simp [fifo.pop_run, he, hh, hn], rfl⟩
  · intro s a fuel he
    cases hh : s.head_ with
    | none => simp [fifo.empty, hh] at he
    | some h =>
      by_cases hah : a = h
      · left
        subst hah
        cases hn : s.next a with
        | none =>
          exact ⟨{ next := s.next, head_ := none, tail_ := none },
            by simp [fifo.erase_run, fifo.pop_run, he, hh, hn, Except.map]⟩
        | some n =>
          exact ⟨{ next := fifo.setNext s.next a none, head_ := some n, tail_ := s.tail_ },
            by simp [fifo.erase_run, fifo.pop_run, he, hh, hn, Except.map]⟩
      · cases hl : fifo.eraseLoop (some a) fuel s (some h) with
        | ok s1 =>
          left
          exact ⟨s1, by simp [fifo.erase_run, he, hh, hah, hl]⟩
        | error e =>
          right
          have hfu : e = .fuel := fifo.eraseLoop_error_fuel fuel (some h) hl
          subst hfu
          simp [fifo.erase_run, he, hh, hah, hl]
  · intro s a hw he
    obtain ⟨L, hL⟩ := fifo.wellFormed_holds hw
    have hne : L ≠ [] := by
      intro e
      have := (fifo.holds_empty_iff hL).mpr e
      rw [he] at this
      exact absurd this (by simp)
    obtain ⟨s1, he1, _⟩ := fifo.erase_holds a hL hne L.length le_rfl
    refine ⟨L.length, s1, ?_⟩
    intro fuel hf
    have h2 := fifo.erase_mono L.length fuel he1 hf
    rw [fifo.erase_eq_erase_run] at h2
    generalize fifo.erase_run fuel s (some a) = q at h2
    obtain ⟨q1, q2⟩ := q
    cases q1 with
    | error e => simp [Except.map] at h2
    | ok u =>
      simp only [Except.map, Except.ok.injEq] at h2
      rw [h2]
  · intro m self hs ho
    cases hw : m.waiting_ with
    | nil =>
      exact ⟨none, { state_ := .unlocked, owner_ := none, waiting_ := [] },
        by simp [unlock_run, hs, ho, hw]⟩
    | cons g rest =>
      exact ⟨some g, { state_ := .unlocked, owner_ := none, waiting_ := rest },
        by simp [unlock_run, hs, ho, hw]⟩

/-- Witness of C17: `unlock()` by fiber 2 on the mutex owned by fiber 1 ends in a failed
assertion with the mutex as it was. -/
theorem precondition_violations_witness :
    lockedWaited.owner_ ≠ some 2 ∧
    unlock_run 2 lockedWaited = (.error .assertion, lockedWaited) :=
  ⟨by decide, precondition_violations.2.2.2.1 lockedWaited 2 (by decide)⟩

theorem lockedWaited_constructed : Constructed lockedWaited :=
  Constructed.step
    (Constructed.step
      (Constructed.step Constructed.init
        (Op.lock init 1 (.returned true)
          { state_ := .locked, owner_ := some 1, waiting_ := [] } rfl))
      (Op.lock _ 5 .suspended { state_ := .locked, owner_ := some 1, waiting_ := [5] } rfl))
    (Op.lock _ 6 .suspended lockedWaited rfl)

theorem releasedWaited_constructed : Constructed releasedWaited :=
  Constructed.step lockedWaited_constructed (Op.unlock lockedWaited 1 (some 5) releasedWaited rfl)

/-- C10: result and effect of `try_lock()`. For every state a mutex reaches from
construction by `lock`, `try_lock`, `try_lock_until` and `unlock` calls, and every
calling fiber, `try_lock()` returns, and returns `true` iff the state was Unlocked; on
`true` the state is Locked, `owner_` is the caller and the waiting list is unchanged;
on `false` the mutex is unchanged (the caller is not enqueued). Scenario: on a fresh
mutex `lock()` by A returns with owner A, `try_lock()` by B returns `false`, `unlock()`
by A wakes nobody and gives back the fresh mutex, and `try_lock()` by B then returns
`true` with owner B. -/
theorem try_lock_result_and_effect :
    (∀ (m : State) (self : Nat), Constructed m →
      ∃ b m1, try_lock self m = .ok (b, m1) ∧ (b = true ↔ m.state_ = .unlocked) ∧
        (b = true → m1 = { state_ := .locked, owner_ := some self, waiting_ := m.waiting_ }) ∧
        (b = false → m1 = m)) ∧
    (∀ A B : Nat,
      lock_pass A init = .ok (.returned true,
        { state_ := .locked, owner_ := some A, waiting_ := [] }) ∧
      try_lock B { state_ := .locked, owner_ := some A, waiting_ := [] } =
        .ok (false, { state_ := .locked, owner_ := some A, waiting_ := [] }) ∧
      unlock A { state_ := .locked, owner_ := some A, waiting_ := [] } = .ok (none, init) ∧
      try_lock B init = .ok (true, { state_ := .locked, owner_ := some B, waiting_ := [] })) := by
  constructor
  · intro m self hc
    have hinv := constructed_owner hc
    cases hs : m.state_ with
    | unlocked =>
      have ho : m.owner_ = none := by
        cases hown : m.owner_ with
        | none => rfl
        | some g =>
          have := hinv.mp ⟨g, hown⟩
          rw [hs] at this
          cases this
      refine ⟨true, { state_ := .locked, owner_ := some self, waiting_ := m.waiting_ },
        ?_, by simp, fun _ => rfl, by simp⟩
      simp [try_lock, lock_if_unlocked_, hs, ho]
    | locked =>
      refine ⟨false, m, ?_, by simp, by simp, fun _ => rfl⟩
      simp [try_lock, lock_if_unlocked_, hs]
  · intro A B
    refine ⟨rfl, rfl, ?_, rfl⟩
    simp [unlock, init]

/-- Witness of C10: `try_lock()` by fiber 2 on the released mutex on which fiber 6 still
waits returns `true`, fiber 2 becoming owner with the waiting list as it was. -/
theorem try_lock_result_and_effect_witness :
    Constructed releasedWaited ∧
    ∃ b m1, try_lock 2 releasedWaited = .ok (b, m1) ∧
      (b = true ↔ releasedWaited.state_ = .unlocked) ∧
      (b = true → m1 = { state_ := .locked, owner_ := some 2,
                         waiting_ := releasedWaited.waiting_ }) ∧
      (b = false → m1 = releasedWaited) :=
  ⟨releasedWaited_constructed,
    try_lock_result_and_effect.1 releasedWaited 2 releasedWaited_constructed⟩

end timed_mutex
